import Mathlib

/-!
# TwoDList: a multi-level doubly-linked list (skip list)

A shallow embedding of `src/TwoDList.h` / `src/TwoDList.cpp`.

* Pointers are `Option Nat`: `none` is `nullptr`, `some a` is the address `a`
  of a cell of the heap.
* The heap is a list of cells; a cell is `some node` while the node is
  allocated and `none` once it has been deleted.  `new` appends a cell, so an
  address is never handed out twice; the only pointers that can dangle
  (`tails_[level]` after the last node of a level was erased, and the
  `upLevel_`/`downLevel_` links) are never dereferenced by the code and are
  only ever compared with a null head, so this choice is unobservable.
* Every operation returns an `Option`: `none` means that the C++ code would
  dereference a null or deleted pointer, read an array out of bounds, or
  (for the loops that follow `next_` links) run out of the fuel that bounds
  the walk by the size of the heap.
* The process-wide random generator behind `alsoHigher` is an explicit
  stream of coin outcomes which is threaded through `insert`.
-/

/-! ## Definitions: the embedding of the code, then the notions the theorems use -/

/-- Pointer to a node: `none` models `nullptr`. -/
abbrev Ptr := Option Nat

/-- Node of the list, `struct TwoDList::TwoDListNode`. -/
structure TwoDListNode where
  data_ : Int
  next_ : Ptr
  prev_ : Ptr
  upLevel_ : Ptr
  downLevel_ : Ptr
deriving DecidableEq

/-- Heap of nodes, addressed by position; `none` marks a deleted node. -/
abbrev Heap := List (Option TwoDListNode)

/-- State of a `TwoDList` object: the data members `maxLevels_`, `heads_`,
`tails_`, together with the heap holding the nodes it owns.  The constructor
gives both arrays `maxLevels_` entries and nothing resizes them; reading an
entry out of range is a fault, and an assignment to an entry is `List.set`. -/
structure TwoDList where
  maxLevels_ : Nat
  heads_ : List Ptr
  tails_ : List Ptr
  heap : Heap
deriving DecidableEq

/-- Stream of the outcomes the coin of `alsoHigher` will produce. -/
abbrev Coins := Nat → Bool

namespace Heap

/-- Dereference an address: `none` when the node is not allocated. -/
def deref (h : Heap) (a : Nat) : Option TwoDListNode :=
  match h[a]? with
  | some (some n) => some n
  | _ => none

/-- Write through a pointer: update the node stored at `a`. -/
def modify (h : Heap) (a : Nat) (f : TwoDListNode → TwoDListNode) : Option Heap :=
  match deref h a with
  | none => none
  | some n => some (h.set a (some (f n)))

/-- Assignment `a->next_ = v`. -/
def setNext (h : Heap) (a : Nat) (v : Ptr) : Option Heap :=
  modify h a (fun n => { n with next_ := v })

/-- Assignment `a->prev_ = v`. -/
def setPrev (h : Heap) (a : Nat) (v : Ptr) : Option Heap :=
  modify h a (fun n => { n with prev_ := v })

/-- Assignment `a->upLevel_ = v`. -/
def setUp (h : Heap) (a : Nat) (v : Ptr) : Option Heap :=
  modify h a (fun n => { n with upLevel_ := v })

/-- Assignment `a->downLevel_ = v`. -/
def setDown (h : Heap) (a : Nat) (v : Ptr) : Option Heap :=
  modify h a (fun n => { n with downLevel_ := v })

/-- Expression `new TwoDListNode(data)`: the node constructor sets the four
links to `nullptr`.  Returns the address of the node and the new heap. -/
def alloc (h : Heap) (data : Int) : Nat × Heap :=
  (h.length, h ++ [some ⟨data, none, none, none, none⟩])

/-- Statement `delete a`. -/
def free (h : Heap) (a : Nat) : Heap :=
  h.set a none

end Heap

namespace TwoDList

/-- Constructor `TwoDList::TwoDList(int maxLevels)`: both pointer arrays get
`maxLevels` null entries.  (A negative argument makes `new[]` throw before
an object exists, so the height is a natural number here.) -/
def create (maxLevels : Nat) : TwoDList :=
  { maxLevels_ := maxLevels
    heads_ := List.replicate maxLevels none
    tails_ := List.replicate maxLevels none
    heap := [] }

/-- Function `TwoDList::levelIsEmpty`:
`(heads_[level] == nullptr && tails_[level] == nullptr) || heads_[level] == tails_[level]`. -/
def levelIsEmpty (s : TwoDList) (level : Nat) : Option Bool := do
  let h ← s.heads_[level]?
  let t ← s.tails_[level]?
  some ((h == none && t == none) || h == t)

/-- Function `TwoDList::alsoHigher`: one toss of the coin; returns the outcome
and the outcomes still to come. -/
def alsoHigher (g : Coins) : Bool × Coins :=
  (g 0, fun i => g (i + 1))

/-- Inner loop of `contains`:
`while (cur != nullptr) { if (cur->data_ == anEntry) return true; cur = cur->next_; }`.
The result is `some true` for the early return and `some false` when the loop
ends at the null pointer.  The first argument is the fuel: the number of nodes
the walk may still visit. -/
def containsScan (h : Heap) : Nat → Ptr → Int → Option Bool
  | _, none, _ => some false
  | 0, some _, _ => none
  | fuel + 1, some a, anEntry =>
    match h.deref a with
    | none => none
    | some n =>
      if n.data_ = anEntry then some true
      else containsScan h fuel n.next_ anEntry

/-- Outer loop of `contains`, `for (int i = maxLevels_ - 1; i >= 0; i--)`;
the argument counts the levels still to visit, the next one being `i`. -/
def containsLevels (s : TwoDList) (anEntry : Int) : Nat → Option Bool
  | 0 => some false
  | i + 1 => do
    let cur ← s.heads_[i]?
    let e ← s.levelIsEmpty i
    if !e then
      let found ← containsScan s.heap s.heap.length cur anEntry
      if found then some true else containsLevels s anEntry i
    else containsLevels s anEntry i

/-- Function `TwoDList::contains`.  Its first statement reads
`heads_[maxLevels_ - 1]`, which is out of bounds when `maxLevels_` is `0`. -/
def contains (s : TwoDList) (anEntry : Int) : Option Bool :=
  if s.maxLevels_ = 0 then none
  else do
    let _ ← s.heads_[s.maxLevels_ - 1]?
    containsLevels s anEntry s.maxLevels_

/-- Function `TwoDList::addBefore`. -/
def addBefore (s : TwoDList) (newNode : Nat) (nextNode : Ptr) (level : Nat) :
    Option TwoDList := do
  let hd ← s.heads_[level]?
  if hd = none then
    some { s with heads_ := s.heads_.set level (some newNode)
                  tails_ := s.tails_.set level (some newNode) }
  else
    -- `nextNode == heads_[level] && nextNode->data_ < newNode->data_`
    let c1 ← (if nextNode = hd then do
                let a ← nextNode
                let nx ← s.heap.deref a
                let nw ← s.heap.deref newNode
                some (decide (nx.data_ < nw.data_))
              else some false)
    if c1 then do
      let a ← nextNode
      let h1 ← s.heap.setNext a (some newNode)
      let h2 ← h1.setPrev newNode nextNode
      some { s with heap := h2, tails_ := s.tails_.set level (some newNode) }
    else
      -- `nextNode == heads_[level] && nextNode->data_ > newNode->data_`
      let c2 ← (if nextNode = hd then do
                  let a ← nextNode
                  let nx ← s.heap.deref a
                  let nw ← s.heap.deref newNode
                  some (decide (nx.data_ > nw.data_))
                else some false)
      if c2 then do
        let a ← nextNode
        let h1 ← s.heap.setNext newNode nextNode
        let h2 ← h1.setPrev a (some newNode)
        some { s with heap := h2, heads_ := s.heads_.set level (some newNode) }
      else do
        -- `nextNode->data_ < newNode->data_`
        let a ← nextNode
        let nx ← s.heap.deref a
        let nw ← s.heap.deref newNode
        if nx.data_ < nw.data_ then do
          let h1 ← s.heap.setPrev newNode nextNode
          let h2 ← h1.setNext a (some newNode)
          some { s with heap := h2, tails_ := s.tails_.set level (some newNode) }
        else do
          let h1 ← s.heap.setNext newNode nextNode
          let nx1 ← h1.deref a
          let h2 ← h1.setPrev newNode nx1.prev_
          let nw2 ← h2.deref newNode
          let p ← nw2.prev_
          let h3 ← h2.setNext p (some newNode)
          let h4 ← h3.setPrev a (some newNode)
          some { s with heap := h4 }

/-- Inner loop of the pointer collection in `insert`:
`while (newEntry > cur->data_ && cur->next_ != nullptr) cur = cur->next_;`
returning the final value of `cur`.  The first argument is the fuel: the number
of nodes the walk may still visit. -/
def insertWalk (h : Heap) : Nat → Ptr → Int → Option Nat
  | 0, _, _ => none
  | fuel + 1, cur, newEntry => do
    let a ← cur
    let n ← h.deref a
    if newEntry > n.data_ ∧ n.next_ ≠ none then insertWalk h fuel n.next_ newEntry
    else some a

/-- Body of the pointer collection in `insert` for one level: the value
stored in `addBeforePtrs[level]`. -/
def insertPoint (s : TwoDList) (newEntry : Int) (level : Nat) : Option Ptr := do
  let cur ← s.heads_[level]?
  let e ← s.levelIsEmpty level
  if e then some cur
  else
    let a ← insertWalk s.heap s.heap.length cur newEntry
    let n ← s.heap.deref a
    if newEntry > n.data_ then s.tails_[level]? else some (some a)

/-- Loop `while (level >= 0) { ...; level--; }` of `insert` filling the
vector `addBeforePtrs`; the first argument counts the levels still to visit. -/
def collectPtrs (s : TwoDList) (newEntry : Int) : Nat → List Ptr → Option (List Ptr)
  | 0, ptrs => some ptrs
  | level + 1, ptrs => do
    let p ← insertPoint s newEntry level
    if level < ptrs.length then collectPtrs s newEntry level (ptrs.set level p)
    else none

/-- Loop `while (alsoHigher() && higher < maxLevels_) { ... higher++; }` of
`insert`.  The coin is tossed before the bound on `higher` is tested.  The
body links the new node to `nn_`, the node of level 0.  The first numeric
argument is the fuel (the loop body runs fewer than `maxLevels_` times), the
second is `higher`. -/
def promote (newEntry : Int) (nn : Nat) (ptrs : List Ptr) :
    Nat → Nat → TwoDList → Coins → Option (TwoDList × Coins)
  | 0, _, _, _ => none
  | fuel + 1, higher, s, g =>
    let (c, g1) := alsoHigher g
    if c && decide (higher < s.maxLevels_) then do
      let (nwn, h1) := s.heap.alloc newEntry
      let p ← ptrs[higher]?
      let s1 ← addBefore { s with heap := h1 } nwn p higher
      let h2 ← s1.heap.setUp nn (some nwn)
      let h3 ← h2.setDown nwn (some nn)
      promote newEntry nn ptrs fuel (higher + 1) { s1 with heap := h3 } g1
    else some (s, g1)

/-- Function `TwoDList::insert`; the result carries the returned boolean, the
new state and the coin outcomes left. -/
def insert (s : TwoDList) (newEntry : Int) (g : Coins) :
    Option (Bool × TwoDList × Coins) := do
  let c ← s.contains newEntry
  if c then some (false, s, g)
  else
    let _ ← s.heads_[s.maxLevels_ - 1]?
    let (nn, h1) := s.heap.alloc newEntry
    let s1 := { s with heap := h1 }
    let ptrs ← collectPtrs s1 newEntry s.maxLevels_ (List.replicate s.maxLevels_ none)
    let p0 ← ptrs[0]?
    let s2 ← addBefore s1 nn p0 0
    let (s3, g1) ← promote newEntry nn ptrs s.maxLevels_ 1 s2 g
    some (true, s3, g1)

/-- Inner loop of `erase`:
`while (anEntry != cur->data_ && cur->next_ != nullptr) cur = cur->next_;`
returning the final value of `cur`.  The first argument is the fuel: the number
of nodes the walk may still visit. -/
def eraseWalk (h : Heap) : Nat → Ptr → Int → Option Nat
  | 0, _, _ => none
  | fuel + 1, cur, anEntry => do
    let a ← cur
    let n ← h.deref a
    if anEntry ≠ n.data_ ∧ n.next_ ≠ none then eraseWalk h fuel n.next_ anEntry
    else some a

/-- Body of the loop over the levels in `erase`. -/
def eraseLevel (s : TwoDList) (anEntry : Int) (level : Nat) : Option TwoDList := do
  let hd ← s.heads_[level]?
  if hd = none then some s
  else
    let cur ← eraseWalk s.heap s.heap.length hd anEntry
    let n ← s.heap.deref cur
    if anEntry = n.data_ then
      let s1 ← (match n.prev_, n.next_ with
        | none, none =>
          some { s with heads_ := s.heads_.set level none }
        | none, some nx => do
          let h1 ← s.heap.setPrev nx none
          some { s with heap := h1, heads_ := s.heads_.set level (some nx) }
        | some pv, none => do
          let h1 ← s.heap.setNext pv none
          some { s with heap := h1, tails_ := s.tails_.set level (some pv) }
        | some pv, some nx => do
          let h1 ← s.heap.setPrev nx (some pv)
          let h2 ← h1.setNext pv (some nx)
          some { s with heap := h2 })
      some { s1 with heap := s1.heap.free cur }
    else some s

/-- Loop `for (int level = maxLevels_ - 1; level >= 0; level--)` of `erase`;
the argument counts the levels still to visit. -/
def eraseLevels (anEntry : Int) : Nat → TwoDList → Option TwoDList
  | 0, s => some s
  | level + 1, s => do
    let s1 ← eraseLevel s anEntry level
    eraseLevels anEntry level s1

/-- Function `TwoDList::erase`. -/
def erase (s : TwoDList) (anEntry : Int) : Option (Bool × TwoDList) := do
  let c ← s.contains anEntry
  if !c then some (false, s)
  else
    let s1 ← eraseLevels anEntry s.maxLevels_ s
    some (true, s1)

/-- Inner loop of `operator<<`, `while (cur != nullptr) { os << cur->data_; cur = cur->next_; }`:
the keys met from `cur` through the `next_` links.  The first argument is the
fuel: the number of nodes the walk may still visit. -/
def walkKeys (h : Heap) : Nat → Ptr → Option (List Int)
  | _, none => some []
  | 0, some _ => none
  | fuel + 1, some a => do
    let n ← h.deref a
    let rest ← walkKeys h fuel n.next_
    some (n.data_ :: rest)

/-- Keys of one level as `operator<<` reads them: from `heads_[level]`
through the `next_` links (the empty list stands for the text `empty`). -/
def levelKeys (s : TwoDList) (level : Nat) : Option (List Int) := do
  let hd ← s.heads_[level]?
  walkKeys s.heap s.heap.length hd

end TwoDList

open TwoDList

namespace Heap

/-- The part of a node the horizontal chains depend on: key, `prev_`, `next_`. -/
def vw (h : Heap) (a : Nat) : Option (Int × Ptr × Ptr) :=
  (h.deref a).map fun n => (n.data_, n.prev_, n.next_)

end Heap

/-- Ghost chain of a level: the addresses of its nodes, in the order of the
`next_` links, each paired with the key it holds. -/
abbrev Chain := List (Nat × Int)

namespace Chain

/-- Address of the first node of a chain, or `e` for the empty chain. -/
def hd : Chain → Ptr → Ptr
  | [], e => e
  | (a, _) :: _, _ => some a

/-- Address of the last node of a chain, or `p` for the empty chain. -/
def lst : Ptr → Chain → Ptr
  | p, [] => p
  | _, (a, _) :: l => lst (some a) l

/-- Addresses of a chain. -/
def addrs (l : Chain) : List Nat := l.map Prod.fst

/-- Keys of a chain. -/
def keys (l : Chain) : List Int := l.map Prod.snd

/-- Predicate `Seg h p l e`: the nodes of `l` are allocated in `h`, hold the keys
of `l`, and are doubly linked in this order; the `prev_` link of the first is `p`
and the `next_` link of the last is `e`. -/
def Seg (h : Heap) : Ptr → Chain → Ptr → Prop
  | _, [], _ => True
  | p, (a, k) :: l, e => h.vw a = some (k, p, hd l e) ∧ Seg h (some a) l e

end Chain

open Chain

namespace TwoDList

/-- Level `L` of the state `s` holds exactly the chain `l`. -/
structure LevelOK (s : TwoDList) (L : Nat) (l : Chain) : Prop where
  head : s.heads_[L]? = some (hd l none)
  tail : ∃ t, s.tails_[L]? = some t ∧ (l ≠ [] → t = lst none l)
  seg : Seg s.heap none l none
  sorted : (keys l).Pairwise (· < ·)
  nodup : (addrs l).Nodup

/-- The state `s` is well formed and its levels hold the chains `ch`. -/
structure Struct (s : TwoDList) (ch : Nat → Chain) : Prop where
  hlen : s.heads_.length = s.maxLevels_
  tlen : s.tails_.length = s.maxLevels_
  level : ∀ L, L < s.maxLevels_ → LevelOK s L (ch L)
  disj : ∀ L M, L < s.maxLevels_ → M < s.maxLevels_ → L ≠ M →
    ∀ a, a ∈ addrs (ch L) → a ∉ addrs (ch M)

/-- The state `t` differs from `s` at most in level `L` and in the heap
cells listed in `A` (and in cells not allocated in `s`). -/
structure FrameAt (s t : TwoDList) (L : Nat) (A : List Nat) : Prop where
  maxLevels : t.maxLevels_ = s.maxLevels_
  hlen : t.heads_.length = s.heads_.length
  tlen : t.tails_.length = s.tails_.length
  heads : ∀ M, M ≠ L → t.heads_[M]? = s.heads_[M]?
  tails : ∀ M, M ≠ L → t.tails_[M]? = s.tails_[M]?
  heap : ∀ b, b ∉ A → b < s.heap.length → t.heap.vw b = s.heap.vw b
  heapLen : s.heap.length ≤ t.heap.length

/-- Chain of a level once the key `k` has been erased from it. -/
def del (k : Int) (l : Chain) : Chain := l.filter (fun x => decide (x.2 ≠ k))

/-- The key `k` is found by `contains` at a level holding the chain `l`: the level
has at least two nodes and one of them holds `k`. -/
def Visible (k : Int) (l : Chain) : Prop := 2 ≤ l.length ∧ k ∈ keys l

instance (k : Int) (l : Chain) : Decidable (Visible k l) := by
  unfold Visible; infer_instance

end TwoDList

namespace Chain

/-- Nodes of a chain met before the place of the key `k`: those with a smaller key
at the front of the chain. -/
def lower (k : Int) (l : Chain) : Chain := l.takeWhile (fun x => decide (x.2 < k))

/-- Nodes of a chain from the first one whose key is not smaller than `k`. -/
def upper (k : Int) (l : Chain) : Chain := l.dropWhile (fun x => decide (x.2 < k))

/-- Insertion point that `insert` records for a level holding the chain `l`. -/
def insPt (k : Int) (l : Chain) : Ptr :=
  match upper k l with
  | [] => lst none l
  | (c, _) :: _ => some c

/-- Chain of a level once a node `x` holding `k` has been spliced in. -/
def ins (x : Nat) (k : Int) (l : Chain) : Chain := lower k l ++ (x, k) :: upper k l

end Chain

namespace TwoDList

/-- Number of levels above the current one that `insert` will add the key to:
the leading successes among the next `n` tosses. -/
def promoted (g : Coins) : Nat → Nat
  | 0 => 0
  | n + 1 => if g 0 then 1 + promoted (fun i => g (i + 1)) n else 0

/-- Invariant of the reachable states: the levels hold sorted, well-linked,
pairwise disjoint chains, and every key of a level occurs in the level below. -/
structure Inv (s : TwoDList) (ch : Nat → Chain) : Prop where
  struct : Struct s ch
  incl : ∀ L, L + 1 < s.maxLevels_ → ∀ x ∈ keys (ch (L + 1)), x ∈ keys (ch L)

/-- No level is left with a null head and a dangling tail. -/
def NoDangling (s : TwoDList) (ch : Nat → Chain) : Prop :=
  ∀ L, L < s.maxLevels_ → ch L = [] → s.tails_[L]? = some none

/-- Call made on the structure: `insert k` or `erase k`. -/
inductive Op where
  | ins (k : Int)
  | del (k : Int)
deriving DecidableEq

/-- States reachable from the fresh structure of maximum height `H` by calls of
`insert` and `erase` that return; the list records the calls made so far, oldest
first, each with the boolean it returned.  The coin outcomes of each `insert`
are arbitrary. -/
inductive Reach (H : Nat) : List (Op × Bool) → TwoDList → Prop where
  | fresh : Reach H [] (create H)
  | insert {tr : List (Op × Bool)} {s t : TwoDList} {k : Int} {g g1 : Coins} {b : Bool} :
      Reach H tr s → insert s k g = some (b, t, g1) → Reach H (tr ++ [(Op.ins k, b)]) t
  | erase {tr : List (Op × Bool)} {s t : TwoDList} {k : Int} {b : Bool} :
      Reach H tr s → erase s k = some (b, t) → Reach H (tr ++ [(Op.del k, b)]) t

/-- Effect of one recorded call on the set of keys a sorted-set model holds: a
successful `insert` adds the key, a successful `erase` removes it, a call that
returned false changes nothing. -/
def liveStep (S : Finset Int) : Op × Bool → Finset Int
  | (Op.ins k, true) => Insert.insert k S
  | (Op.del k, true) => S.erase k
  | (_, false) => S

/-- Keys for which `insert` returned true and for which no later `erase` returned
true, computed from the record of the calls (oldest first). -/
def liveKeys (tr : List (Op × Bool)) : Finset Int := tr.foldl liveStep ∅

/-- The key `k` occurs in the chain of level `L`, read from the head through the
`next_` links. -/
def occursAt (s : TwoDList) (L : Nat) (k : Int) : Prop :=
  match levelKeys s L with
  | some ks => k ∈ ks
  | none => False

instance (s : TwoDList) (L : Nat) (k : Int) : Decidable (occursAt s L k) := by
  unfold occursAt; split <;> infer_instance

/-- Sample state: `TwoDList(2)` after `insert(4)` with a successful coin, so
that both levels hold the key 4. -/
def sampleA : TwoDList :=
  { maxLevels_ := 2
    heads_ := [some 0, some 1]
    tails_ := [some 0, some 1]
    heap := [some { data_ := 4, next_ := none, prev_ := none, upLevel_ := some 1, downLevel_ := none },
             some { data_ := 4, next_ := none, prev_ := none, upLevel_ := none, downLevel_ := some 0 }] }

/-- Sample state: `sampleA` after `insert(6)` with a failing coin: level 0 reads
4, 6 and level 1 reads 4. -/
def sampleB : TwoDList :=
  { maxLevels_ := 2
    heads_ := [some 0, some 1]
    tails_ := [some 2, some 1]
    heap := [some { data_ := 4, next_ := some 2, prev_ := none, upLevel_ := some 1, downLevel_ := none },
             some { data_ := 4, next_ := none, prev_ := none, upLevel_ := none, downLevel_ := some 0 },
             some { data_ := 6, next_ := none, prev_ := some 0, upLevel_ := none, downLevel_ := none }] }

/-- Sample state: `sampleB` after `erase(6)`. -/
def sampleC : TwoDList :=
  { maxLevels_ := 2
    heads_ := [some 0, some 1]
    tails_ := [some 0, some 1]
    heap := [some { data_ := 4, next_ := none, prev_ := none, upLevel_ := some 1, downLevel_ := none },
             some { data_ := 4, next_ := none, prev_ := none, upLevel_ := none, downLevel_ := some 0 },
             none] }

/-- Sample state: `sampleB` after `erase(4)`; level 1 keeps a dangling tail. -/
def sampleD : TwoDList :=
  { maxLevels_ := 2
    heads_ := [some 2, none]
    tails_ := [some 2, some 1]
    heap := [none, none,
             some { data_ := 6, next_ := none, prev_ := none, upLevel_ := none, downLevel_ := none }] }

/-- State whose level 0 is known: height `H`, invariant, keys `ks` at level 0. -/
def Okay (s : TwoDList) (H : Nat) (ks : List Int) : Prop :=
  s.maxLevels_ = H ∧ ∃ ch, Inv s ch ∧ keys (ch 0) = ks

/-- State as `Okay`, in which moreover no level has a dangling tail. -/
def Clean (s : TwoDList) (H : Nat) (ks : List Int) : Prop :=
  s.maxLevels_ = H ∧ ∃ ch, Inv s ch ∧ NoDangling s ch ∧ keys (ch 0) = ks

end TwoDList

namespace TwoDList

/-- Keys met from `cur` through the `prev_` links, as a traversal from a tail
towards the head reads them.  The first argument is the fuel: the number of
nodes the walk may still visit. -/
def walkKeysBack (h : Heap) : Nat → Ptr → Option (List Int)
  | _, none => some []
  | 0, some _ => none
  | fuel + 1, some a => do
    let n ← h.deref a
    let rest ← walkKeysBack h fuel n.prev_
    some (n.data_ :: rest)

/-- Keys of one level read backwards: from `tails_[level]` through the `prev_`
links. -/
def levelKeysBack (s : TwoDList) (level : Nat) : Option (List Int) := do
  let tl ← s.tails_[level]?
  walkKeysBack s.heap s.heap.length tl

/-- Nodes met from `cur` through the `next_` links, each as its address and its
key.  The first argument is the fuel: the number of nodes the walk may still
visit. -/
def walkNodes (h : Heap) : Nat → Ptr → Option Chain
  | _, none => some []
  | 0, some _ => none
  | fuel + 1, some a => do
    let n ← h.deref a
    let rest ← walkNodes h fuel n.next_
    some ((a, n.data_) :: rest)

/-- Nodes of one level, from `heads_[level]` through the `next_` links. -/
def levelNodes (s : TwoDList) (level : Nat) : Option Chain := do
  let hd ← s.heads_[level]?
  walkNodes s.heap s.heap.length hd

/-- Vector `addBeforePtrs` at the end of the loop `while (level >= 0)` that
`insert(k)` runs in the state `s` once `contains(k)` has returned false: the node
`nn_` is allocated, the vector is filled with null pointers, and every level is
visited from the top down, exactly as in `insert`.  The result is `none` when
the loop faults at some level; no insertion point is then recorded at all. -/
def recordedPoints (s : TwoDList) (k : Int) : Option (List Ptr) :=
  collectPtrs { s with heap := (s.heap.alloc k).2 } k s.maxLevels_
    (List.replicate s.maxLevels_ none)

/-- Entry `addBeforePtrs[level]` once the whole collection loop of `insert(k)`
has run in the state `s`. -/
def recordedPoint (s : TwoDList) (k : Int) (level : Nat) : Option Ptr := do
  let ptrs ← recordedPoints s k
  ptrs[level]?

/-- Insertion point as the code designs it: the leftmost node whose key is
greater than `k` (the node to add before), the last node of the level when no
key is greater, and the null pointer for a level without nodes. -/
def succPoint (nodes : Chain) (k : Int) : Ptr :=
  match nodes.find? (fun x => decide (k < x.2)) with
  | some x => some x.1
  | none => Chain.lst none nodes

/-- Insertion point as the specification words it: the rightmost node whose key
is less than `k`, the null pointer when the level has no such node. -/
def predPoint (nodes : Chain) (k : Int) : Ptr :=
  ((nodes.filter (fun x => decide (x.2 < k))).getLast?).map Prod.fst

end TwoDList

/-! ## Theorems -/

namespace Heap

theorem deref_lt {h : Heap} {a : Nat} {n : TwoDListNode} (hd : h.deref a = some n) :
    a < h.length := by
  unfold deref at hd
  by_contra hlt
  rw [List.getElem?_eq_none (by omega)] at hd
  simp at hd

theorem deref_set {h : Heap} {a : Nat} (v : Option TwoDListNode) (ha : a < h.length)
    (b : Nat) : deref (h.set a v) b = if b = a then v else deref h b := by
  unfold deref
  by_cases hb : b = a
  · subst hb
    simp [List.getElem?_set_self, ha]
    cases v <;> rfl
  · simp [hb, List.getElem?_set_ne (Ne.symm hb)]

theorem deref_append (h : Heap) (v : Option TwoDListNode) (b : Nat) :
    deref (h ++ [v]) b = if b = h.length then v else deref h b := by
  unfold deref
  by_cases hb : b = h.length
  · subst hb
    simp
    cases v <;> rfl
  · simp only [hb, if_false]
    rcases Nat.lt_or_gt_of_ne hb with h1 | h1
    · rw [List.getElem?_append_left h1]
    · rw [List.getElem?_eq_none (by simp; omega), List.getElem?_eq_none (by omega)]

theorem vw_some {h : Heap} {a : Nat} {k : Int} {p e : Ptr} (hv : h.vw a = some (k, p, e)) :
    ∃ n, h.deref a = some n ∧ n.data_ = k ∧ n.prev_ = p ∧ n.next_ = e := by
  unfold vw at hv
  cases hd : h.deref a with
  | none => simp [hd] at hv
  | some n =>
    simp [hd] at hv
    exact ⟨n, rfl, hv.1, hv.2.1, hv.2.2⟩

theorem vw_of_deref {h : Heap} {a : Nat} {n : TwoDListNode} (hd : h.deref a = some n) :
    h.vw a = some (n.data_, n.prev_, n.next_) := by
  simp [vw, hd]

theorem vw_lt {h : Heap} {a : Nat} {v : Int × Ptr × Ptr} (hv : h.vw a = some v) :
    a < h.length := by
  obtain ⟨k, p, e⟩ := v
  obtain ⟨n, hn, _⟩ := vw_some hv
  exact deref_lt hn

theorem modify_spec {h : Heap} {a : Nat} {n : TwoDListNode} (f : TwoDListNode → TwoDListNode)
    (hd : h.deref a = some n) :
    ∃ h1, h.modify a f = some h1 ∧ h1.length = h.length ∧
      ∀ b, h1.deref b = if b = a then some (f n) else h.deref b := by
  refine ⟨h.set a (some (f n)), by simp [modify, hd], by simp, fun b => ?_⟩
  exact deref_set _ (deref_lt hd) b

theorem setNext_spec {h : Heap} {a : Nat} {k : Int} {p e : Ptr} (v : Ptr)
    (hv : h.vw a = some (k, p, e)) :
    ∃ h1, h.setNext a v = some h1 ∧ h1.length = h.length ∧
      ∀ b, h1.vw b = if b = a then some (k, p, v) else h.vw b := by
  obtain ⟨n, hn, hk, hp, _⟩ := vw_some hv
  obtain ⟨h1, e1, e2, e3⟩ := modify_spec (fun n => { n with next_ := v }) hn
  refine ⟨h1, e1, e2, fun b => ?_⟩
  unfold vw
  rw [e3 b]
  by_cases hb : b = a <;> simp [hb, hk, hp]

theorem setPrev_spec {h : Heap} {a : Nat} {k : Int} {p e : Ptr} (v : Ptr)
    (hv : h.vw a = some (k, p, e)) :
    ∃ h1, h.setPrev a v = some h1 ∧ h1.length = h.length ∧
      ∀ b, h1.vw b = if b = a then some (k, v, e) else h.vw b := by
  obtain ⟨n, hn, hk, _, he⟩ := vw_some hv
  obtain ⟨h1, e1, e2, e3⟩ := modify_spec (fun n => { n with prev_ := v }) hn
  refine ⟨h1, e1, e2, fun b => ?_⟩
  unfold vw
  rw [e3 b]
  by_cases hb : b = a <;> simp [hb, hk, he]

theorem setUp_spec {h : Heap} {a : Nat} {w : Int × Ptr × Ptr} (v : Ptr)
    (hv : h.vw a = some w) :
    ∃ h1, h.setUp a v = some h1 ∧ h1.length = h.length ∧ ∀ b, h1.vw b = h.vw b := by
  obtain ⟨k, p, e⟩ := w
  obtain ⟨n, hn, hk, hp, he⟩ := vw_some hv
  obtain ⟨h1, e1, e2, e3⟩ := modify_spec (fun n => { n with upLevel_ := v }) hn
  refine ⟨h1, e1, e2, fun b => ?_⟩
  unfold vw
  rw [e3 b]
  by_cases hb : b = a <;> simp [hb, hn]

theorem setDown_spec {h : Heap} {a : Nat} {w : Int × Ptr × Ptr} (v : Ptr)
    (hv : h.vw a = some w) :
    ∃ h1, h.setDown a v = some h1 ∧ h1.length = h.length ∧ ∀ b, h1.vw b = h.vw b := by
  obtain ⟨k, p, e⟩ := w
  obtain ⟨n, hn, hk, hp, he⟩ := vw_some hv
  obtain ⟨h1, e1, e2, e3⟩ := modify_spec (fun n => { n with downLevel_ := v }) hn
  refine ⟨h1, e1, e2, fun b => ?_⟩
  unfold vw
  rw [e3 b]
  by_cases hb : b = a <;> simp [hb, hn]

theorem vw_alloc (h : Heap) (k : Int) (b : Nat) :
    (h.alloc k).2.vw b = if b = h.length then some (k, none, none) else h.vw b := by
  unfold vw alloc
  rw [deref_append]
  by_cases hb : b = h.length <;> simp [hb]

theorem vw_free {h : Heap} {a : Nat} (ha : a < h.length) (b : Nat) :
    (h.free a).vw b = if b = a then none else h.vw b := by
  unfold vw free
  rw [deref_set _ ha]
  by_cases hb : b = a <;> simp [hb]

end Heap

namespace Chain

@[simp] theorem hd_nil (e : Ptr) : hd [] e = e := rfl

@[simp] theorem hd_cons (a : Nat) (k : Int) (l : Chain) (e : Ptr) :
    hd ((a, k) :: l) e = some a := rfl

@[simp] theorem lst_nil (p : Ptr) : lst p [] = p := rfl

@[simp] theorem lst_cons (p : Ptr) (a : Nat) (k : Int) (l : Chain) :
    lst p ((a, k) :: l) = lst (some a) l := rfl

@[simp] theorem keys_nil : keys [] = [] := rfl

@[simp] theorem keys_cons (a : Nat) (k : Int) (l : Chain) :
    keys ((a, k) :: l) = k :: keys l := rfl

@[simp] theorem keys_append (l1 l2 : Chain) : keys (l1 ++ l2) = keys l1 ++ keys l2 := by
  simp [keys]

@[simp] theorem addrs_nil : addrs [] = [] := rfl

@[simp] theorem addrs_cons (a : Nat) (k : Int) (l : Chain) :
    addrs ((a, k) :: l) = a :: addrs l := rfl

@[simp] theorem addrs_append (l1 l2 : Chain) : addrs (l1 ++ l2) = addrs l1 ++ addrs l2 := by
  simp [addrs]

@[simp] theorem seg_nil (h : Heap) (p e : Ptr) : Seg h p [] e := trivial

theorem seg_cons (h : Heap) (p e : Ptr) (a : Nat) (k : Int) (l : Chain) :
    Seg h p ((a, k) :: l) e ↔ h.vw a = some (k, p, hd l e) ∧ Seg h (some a) l e := Iff.rfl

theorem hd_append (l1 l2 : Chain) (e : Ptr) : hd (l1 ++ l2) e = hd l1 (hd l2 e) := by
  cases l1 with
  | nil => rfl
  | cons x l => obtain ⟨a, k⟩ := x; rfl

theorem lst_append (p : Ptr) (l1 l2 : Chain) : lst p (l1 ++ l2) = lst (lst p l1) l2 := by
  induction l1 generalizing p with
  | nil => rfl
  | cons x l ih => obtain ⟨a, k⟩ := x; exact ih (some a)

theorem lst_concat (p : Ptr) (l : Chain) (a : Nat) (k : Int) :
    lst p (l ++ [(a, k)]) = some a := by
  rw [lst_append]; rfl

theorem lst_cons_ne_none (p : Ptr) (x : Nat × Int) (l : Chain) : lst p (x :: l) ≠ none := by
  induction l generalizing p x with
  | nil => obtain ⟨a, k⟩ := x; simp [lst]
  | cons y l ih => obtain ⟨a, k⟩ := x; exact ih (some a) y

theorem lst_cons_irrel (p q : Ptr) (x : Nat × Int) (l : Chain) :
    lst p (x :: l) = lst q (x :: l) := by
  obtain ⟨a, k⟩ := x; rfl

theorem lst_eq_none {l : Chain} : lst none l = none ↔ l = [] := by
  cases l with
  | nil => simp [lst]
  | cons x l => simp [lst_cons_ne_none]

theorem hd_eq_none {l : Chain} : hd l none = none ↔ l = [] := by
  cases l with
  | nil => simp [hd]
  | cons x l => obtain ⟨a, k⟩ := x; simp [hd]

theorem hd_mem {l : Chain} {e : Ptr} {a : Nat} (h : hd l e = some a) (he : e ≠ some a) :
    a ∈ addrs l := by
  cases l with
  | nil => exact absurd h he
  | cons x l => obtain ⟨b, k⟩ := x; simp [hd] at h; simp [addrs, h]

theorem lst_mem {l : Chain} {p : Ptr} {a : Nat} (h : lst p l = some a) (hp : p ≠ some a) :
    a ∈ addrs l := by
  induction l generalizing p with
  | nil => exact absurd h hp
  | cons x l ih =>
    obtain ⟨b, k⟩ := x
    by_cases hb : b = a
    · simp [addrs, hb]
    · have := ih (p := some b) h (by simpa using hb)
      simp only [addrs, List.map_cons, List.mem_cons] at this ⊢
      exact Or.inr this

theorem seg_append {h : Heap} {p e : Ptr} {l1 l2 : Chain} :
    Seg h p (l1 ++ l2) e ↔ Seg h p l1 (hd l2 e) ∧ Seg h (lst p l1) l2 e := by
  induction l1 generalizing p with
  | nil => simp [Seg, lst]
  | cons x l ih =>
    obtain ⟨a, k⟩ := x
    show (h.vw a = some (k, p, hd (l ++ l2) e) ∧ Seg h (some a) (l ++ l2) e) ↔ _
    rw [ih, hd_append]
    simp only [Seg, lst, and_assoc]

theorem seg_congr {h h1 : Heap} {p e : Ptr} {l : Chain}
    (hv : ∀ a ∈ addrs l, h1.vw a = h.vw a) (hs : Seg h p l e) : Seg h1 p l e := by
  induction l generalizing p with
  | nil => trivial
  | cons x l ih =>
    obtain ⟨a, k⟩ := x
    refine ⟨?_, ih (fun b hb => hv b (by simp [addrs] at hb ⊢; exact Or.inr hb)) hs.2⟩
    rw [hv a (by simp [addrs])]
    exact hs.1

theorem seg_lt {h : Heap} {p e : Ptr} {l : Chain} (hs : Seg h p l e) :
    ∀ a ∈ addrs l, a < h.length := by
  induction l generalizing p with
  | nil => simp [addrs]
  | cons x l ih =>
    obtain ⟨a, k⟩ := x
    intro b hb
    simp only [addrs, List.map_cons, List.mem_cons] at hb
    rcases hb with rfl | hb
    · exact Heap.vw_lt hs.1
    · exact ih hs.2 b hb

theorem seg_length_le {h : Heap} {p e : Ptr} {l : Chain} (hs : Seg h p l e)
    (hn : (addrs l).Nodup) : l.length ≤ h.length := by
  have h1 : addrs l ⊆ List.range h.length := by
    intro a ha
    exact List.mem_range.mpr (seg_lt hs a ha)
  have h2 := (List.subperm_of_subset hn h1).length_le
  simpa [addrs] using h2

theorem seg_vw {h : Heap} {p e : Ptr} {l : Chain} (hs : Seg h p l e) {a : Nat} {k : Int}
    (hm : (a, k) ∈ l) : ∃ q r, h.vw a = some (k, q, r) := by
  induction l generalizing p with
  | nil => simp at hm
  | cons x l ih =>
    obtain ⟨b, kb⟩ := x
    simp only [List.mem_cons, Prod.mk.injEq] at hm
    rcases hm with ⟨rfl, rfl⟩ | hm
    · exact ⟨_, _, hs.1⟩
    · exact ih hs.2 hm

theorem hd_append_cons_ne_none (l : Chain) (x : Nat × Int) (l2 : Chain) (e : Ptr) :
    hd (l ++ x :: l2) e ≠ none := by
  obtain ⟨a, k⟩ := x
  cases l with
  | nil => simp
  | cons y l => obtain ⟨c, kc⟩ := y; simp

theorem containsScan_spec {h : Heap} {p : Ptr} {l : Chain} (k : Int) (hs : Seg h p l none)
    {fuel : Nat} (hf : l.length ≤ fuel) :
    containsScan h fuel (hd l none) k = some (decide (k ∈ keys l)) := by
  induction l generalizing p fuel with
  | nil => cases fuel <;> simp [containsScan]
  | cons x l ih =>
    obtain ⟨a, ka⟩ := x
    cases fuel with
    | zero => simp at hf
    | succ fuel =>
      obtain ⟨n, hn, hk, hp, he⟩ := Heap.vw_some hs.1
      have := ih hs.2 (show l.length ≤ fuel by simpa using hf)
      simp only [hd_cons, containsScan, hn, hk, he, this]
      by_cases hka : ka = k
      · simp [hka]
      · have hka2 : ¬ k = ka := fun h => hka h.symm
        simp [hka, hka2]

theorem walkKeys_spec {h : Heap} {p : Ptr} {l : Chain} (hs : Seg h p l none)
    {fuel : Nat} (hf : l.length ≤ fuel) :
    walkKeys h fuel (hd l none) = some (keys l) := by
  induction l generalizing p fuel with
  | nil => cases fuel <;> simp [walkKeys]
  | cons x l ih =>
    obtain ⟨a, ka⟩ := x
    cases fuel with
    | zero => simp at hf
    | succ fuel =>
      obtain ⟨n, hn, hk, hp, he⟩ := Heap.vw_some hs.1
      have := ih hs.2 (show l.length ≤ fuel by simpa using hf)
      simp [walkKeys, hn, hk, he, this]

theorem insertWalk_spec {h : Heap} {p e : Ptr} {l1 l2 : Chain} {a : Nat} {ka k : Int}
    (hs : Seg h p (l1 ++ (a, ka) :: l2) e) (h1 : ∀ x ∈ keys l1, x < k)
    (h2 : ¬ ka < k ∨ hd l2 e = none) {fuel : Nat} (hf : (l1 ++ (a, ka) :: l2).length ≤ fuel) :
    insertWalk h fuel (hd (l1 ++ (a, ka) :: l2) e) k = some a := by
  induction l1 generalizing p fuel with
  | nil =>
    cases fuel with
    | zero => simp at hf
    | succ fuel =>
      obtain ⟨n, hn, hk, hp, he⟩ := Heap.vw_some hs.1
      simp only [List.nil_append, hd_cons, insertWalk]
      rcases h2 with h2 | h2
      · simp [hn, hk, he, h2]
      · simp [hn, hk, he, h2]
  | cons x l ih =>
    obtain ⟨b, kb⟩ := x
    cases fuel with
    | zero => simp at hf
    | succ fuel =>
      obtain ⟨n, hn, hk, hp, he⟩ := Heap.vw_some hs.1
      have hlt : kb < k := h1 kb (by simp)
      have := ih hs.2 (fun x hx => h1 x (by simp; exact Or.inr hx))
        (show (l ++ (a, ka) :: l2).length ≤ fuel by simpa using hf)
      have hne := hd_append_cons_ne_none l (a, ka) l2 e
      simp only [List.cons_append, hd_cons, insertWalk]
      simp [hn, hk, he, hlt, hne, this]

theorem eraseWalk_spec {h : Heap} {p e : Ptr} {l1 l2 : Chain} {a : Nat} {ka k : Int}
    (hs : Seg h p (l1 ++ (a, ka) :: l2) e) (h1 : ∀ x ∈ keys l1, x ≠ k)
    (h2 : ka = k ∨ hd l2 e = none) {fuel : Nat} (hf : (l1 ++ (a, ka) :: l2).length ≤ fuel) :
    eraseWalk h fuel (hd (l1 ++ (a, ka) :: l2) e) k = some a := by
  induction l1 generalizing p fuel with
  | nil =>
    cases fuel with
    | zero => simp at hf
    | succ fuel =>
      obtain ⟨n, hn, hk, hp, he⟩ := Heap.vw_some hs.1
      simp only [List.nil_append, hd_cons, eraseWalk]
      rcases h2 with h2 | h2
      · simp [hn, hk, he, h2]
      · simp [hn, hk, he, h2]
  | cons x l ih =>
    obtain ⟨b, kb⟩ := x
    cases fuel with
    | zero => simp at hf
    | succ fuel =>
      obtain ⟨n, hn, hk, hp, he⟩ := Heap.vw_some hs.1
      have hlt : kb ≠ k := h1 kb (by simp)
      have := ih hs.2 (fun x hx => h1 x (by simp; exact Or.inr hx))
        (show (l ++ (a, ka) :: l2).length ≤ fuel by simpa using hf)
      have hne := hd_append_cons_ne_none l (a, ka) l2 e
      simp only [List.cons_append, hd_cons, eraseWalk]
      simp [hn, hk, he, hlt.symm, hne, this]

theorem seg_last {h : Heap} {p e : Ptr} {l : Chain} {a : Nat} {k : Int}
    (hs : Seg h p (l ++ [(a, k)]) e) : h.vw a = some (k, lst p l, e) := by
  rw [seg_append] at hs
  simpa using hs.2.1

theorem seg_set_end {h h1 : Heap} {p e e1 : Ptr} {l : Chain} {a : Nat} {k : Int}
    (hs : Seg h p (l ++ [(a, k)]) e) (hv : ∀ b ∈ addrs l, h1.vw b = h.vw b)
    (ha : h1.vw a = some (k, lst p l, e1)) : Seg h1 p (l ++ [(a, k)]) e1 := by
  rw [seg_append] at hs ⊢
  refine ⟨?_, ?_⟩
  · simpa using seg_congr hv hs.1
  · simpa [seg_cons] using ha

theorem seg_set_start {h h1 : Heap} {p p1 e : Ptr} {l : Chain} {a : Nat} {k : Int}
    (hs : Seg h p ((a, k) :: l) e) (hv : ∀ b ∈ addrs l, h1.vw b = h.vw b)
    (ha : h1.vw a = some (k, p1, hd l e)) : Seg h1 p1 ((a, k) :: l) e :=
  ⟨ha, seg_congr hv hs.2⟩

end Chain

namespace TwoDList

theorem Struct.relevel {s t : TwoDList} {ch : Nat → Chain} {L : Nat} {l : Chain} {A : List Nat}
    (hs : Struct s ch) (hf : FrameAt s t L A) (hl : LevelOK t L l)
    (hA : ∀ M, M ≠ L → M < s.maxLevels_ → ∀ a ∈ addrs (ch M), a ∉ A)
    (hd : ∀ M, M ≠ L → M < s.maxLevels_ → ∀ a ∈ addrs l, a ∉ addrs (ch M)) :
    Struct t (Function.update ch L l) := by
  refine ⟨by rw [hf.hlen, hs.hlen, hf.maxLevels], by rw [hf.tlen, hs.tlen, hf.maxLevels], ?_, ?_⟩
  · intro M hM
    rw [hf.maxLevels] at hM
    by_cases hML : M = L
    · subst hML; simpa using hl
    · rw [Function.update_noteq hML]
      have h0 := hs.level M hM
      refine ⟨by rw [hf.heads M hML]; exact h0.head, by rw [hf.tails M hML]; exact h0.tail,
        ?_, h0.sorted, h0.nodup⟩
      exact seg_congr (fun b hb => hf.heap b (hA M hML hM b hb) (seg_lt h0.seg b hb)) h0.seg
  · intro M N hM hN hMN a ha
    rw [hf.maxLevels] at hM hN
    by_cases hML : M = L
    · subst hML
      rw [Function.update_noteq (Ne.symm hMN)]
      simp only [Function.update_same] at ha
      exact hd N (Ne.symm hMN) hN a ha
    · rw [Function.update_noteq hML] at ha
      by_cases hNL : N = L
      · subst hNL
        simp only [Function.update_same]
        exact fun h => hd M hML hM a h ha
      · rw [Function.update_noteq hNL]
        exact hs.disj M N hM hN hMN a ha

end TwoDList

namespace Chain

theorem nodup_split {l1 l2 : Chain} {a : Nat} {k : Int}
    (h : (addrs (l1 ++ (a, k) :: l2)).Nodup) :
    a ∉ addrs l1 ∧ a ∉ addrs l2 ∧ (∀ b ∈ addrs l1, b ∉ addrs l2) ∧
      (addrs l1).Nodup ∧ (addrs l2).Nodup := by
  rw [addrs_append, addrs_cons, List.nodup_append, List.nodup_cons] at h
  obtain ⟨h1, ⟨h2, h3⟩, h4⟩ := h
  refine ⟨fun hm => h4 hm (List.mem_cons_self _ _), h2, fun b hb hb2 => ?_, h1, h3⟩
  exact h4 hb (List.mem_cons_of_mem _ hb2)

end Chain

namespace TwoDList

theorem eraseLevel_found {s : TwoDList} {L : Nat} {l1 l2 : Chain} {a : Nat} {k : Int}
    (hl : LevelOK s L (l1 ++ (a, k) :: l2)) (hk : ∀ x ∈ keys l1, x ≠ k)
    (hL : L < s.heads_.length) (hL2 : L < s.tails_.length) :
    ∃ t, eraseLevel s k L = some t ∧ FrameAt s t L (addrs (l1 ++ (a, k) :: l2)) ∧
      t.heads_[L]? = some (hd (l1 ++ l2) none) ∧
      (∃ u, t.tails_[L]? = some u ∧ (l1 ++ l2 ≠ [] → u = lst none (l1 ++ l2))) ∧
      Seg t.heap none (l1 ++ l2) none := by
  have hseg := hl.seg
  have hnd := hl.nodup
  have hfuel := seg_length_le hseg hnd
  have hwalk := eraseWalk_spec (k := k) hseg hk (Or.inl rfl) hfuel
  rw [seg_append] at hseg
  obtain ⟨hs1, hva, hs2⟩ := hseg
  simp only [hd_cons] at hs1
  obtain ⟨n, hn, hnk, hnp, hne⟩ := Heap.vw_some hva
  have hhd : hd (l1 ++ (a, k) :: l2) none ≠ none := hd_append_cons_ne_none _ _ _ _
  have ha_lt := Heap.deref_lt hn
  unfold eraseLevel
  simp only [hl.head, Option.bind_eq_bind, Option.some_bind, hhd, if_false, hwalk, hn, hnk,
    if_true]
  obtain ⟨ha1, ha2, h12, hn1, hn2⟩ := nodup_split hnd
  rcases List.eq_nil_or_concat l1 with rfl | ⟨l1, ⟨pv, kp⟩, rfl⟩
  · cases l2 with
    | nil =>
      simp only [lst_nil, hd_nil] at hnp hne
      simp only [hnp, hne, Option.some_bind]
      refine ⟨_, rfl, ⟨rfl, by simp, rfl, fun M hM => by simp [List.getElem?_set_ne hM.symm],
        fun M _ => rfl, fun b hb _ => ?_, by simp [Heap.free]⟩, by simp [hL], ?_, by simp⟩
      · rw [Heap.vw_free ha_lt]; simp at hb; simp [hb]
      · obtain ⟨u, hu, _⟩ := hl.tail
        exact ⟨u, hu, by simp⟩
    | cons y l2 =>
      obtain ⟨nx, kn⟩ := y
      simp only [lst_nil, hd_cons] at hnp hne
      simp only [hnp, hne]
      have hvn := hs2.1
      obtain ⟨h1, e1, e2, e3⟩ := Heap.setPrev_spec none hvn
      simp only [e1, Option.some_bind]
      simp only [addrs_cons, List.mem_cons, not_or] at ha2
      simp only [addrs_cons, List.nodup_cons] at hn2
      have hfree : ∀ b, (h1.free a).vw b = if b = a then none else h1.vw b :=
        Heap.vw_free (by rw [e2]; exact ha_lt)
      refine ⟨_, rfl, ⟨rfl, by simp, rfl, fun M hM => by simp [List.getElem?_set_ne hM.symm],
        fun M _ => rfl, fun b hb _ => ?_, by simp [Heap.free, e2]⟩, by simp [hL], ?_, ?_⟩
      · simp at hb
        rw [hfree, e3]; simp [hb]
      · obtain ⟨u, hu, hu2⟩ := hl.tail
        exact ⟨u, hu, fun _ => by simpa using hu2 (by simp)⟩
      · refine seg_set_start hs2 (fun b hb => ?_) ?_
        · have hba : b ≠ a := fun h => ha2.2 (h ▸ hb)
          have hbn : b ≠ nx := fun h => hn2.1 (h ▸ hb)
          simp [hfree, e3, hba, hbn]
        · have hna : nx ≠ a := fun h => ha2.1 h.symm
          simp [hfree, e3, hna]
  · simp only [List.concat_eq_append] at *
    have hvp := seg_last hs1
    rw [lst_concat] at hnp hva
    have hhead : ∀ l3 : Chain, hd (l1 ++ [(pv, kp)] ++ l3) none = hd (l1 ++ [(pv, kp)]) none := by
      intro l3
      cases l1 with
      | nil => simp
      | cons y l1 => obtain ⟨c, kc⟩ := y; simp
    obtain ⟨hp1, -, -, -, -⟩ := nodup_split hn1
    simp only [addrs_append, addrs_cons, addrs_nil, List.mem_append, List.mem_singleton,
      not_or] at ha1
    have hpa : pv ≠ a := fun h => ha1.2 h.symm
    cases l2 with
    | nil =>
      simp only [hd_nil] at hne hva
      simp only [hnp, hne]
      obtain ⟨h1, e1, e2, e3⟩ := Heap.setNext_spec none hvp
      simp only [e1, Option.some_bind]
      have hfree : ∀ b, (h1.free a).vw b = if b = a then none else h1.vw b :=
        Heap.vw_free (by rw [e2]; exact ha_lt)
      refine ⟨_, rfl, ⟨rfl, rfl, by simp, fun M _ => rfl,
        fun M hM => by simp [List.getElem?_set_ne hM.symm], fun b hb _ => ?_,
        by simp [Heap.free, e2]⟩, ?_, ⟨some pv, by simp [hL2], fun _ => by simp [lst_append]⟩, ?_⟩
      · simp at hb
        rw [hfree, e3]; simp [hb]
      · show s.heads_[L]? = _
        rw [hl.head, hhead, List.append_nil]
      · rw [List.append_nil]
        refine seg_set_end hs1 (fun b hb => ?_) ?_
        · have hba : b ≠ a := fun h => ha1.1 (h ▸ hb)
          have hbp : b ≠ pv := fun h => hp1 (h ▸ hb)
          simp [hfree, e3, hba, hbp]
        · simp [hfree, e3, hpa]
    | cons y l2 =>
      obtain ⟨nx, kn⟩ := y
      simp only [hd_cons] at hne hva
      simp only [hnp, hne]
      have hvn := hs2.1
      simp only [addrs_cons, List.mem_cons, not_or] at ha2
      simp only [addrs_cons, List.nodup_cons] at hn2
      have hpn0 := h12 pv (by simp)
      simp only [addrs_cons, List.mem_cons, not_or] at hpn0
      have hpn : pv ≠ nx := hpn0.1
      have hna : nx ≠ a := fun h => ha2.1 h.symm
      obtain ⟨h1, e1, e2, e3⟩ := Heap.setPrev_spec (some pv) hvn
      have hvp1 : h1.vw pv = some (kp, lst none l1, some a) := by rw [e3]; simp [hpn, hvp]
      obtain ⟨h2, f1, f2, f3⟩ := Heap.setNext_spec (some nx) hvp1
      simp only [e1, f1, Option.some_bind]
      have hfree : ∀ b, (h2.free a).vw b = if b = a then none else h2.vw b :=
        Heap.vw_free (by rw [f2, e2]; exact ha_lt)
      refine ⟨_, rfl, ⟨rfl, rfl, rfl, fun M _ => rfl, fun M _ => rfl, fun b hb _ => ?_,
        by simp [Heap.free, e2, f2]⟩, ?_, ?_, ?_⟩
      · simp at hb
        rw [hfree, f3, e3]; simp [hb]
      · show s.heads_[L]? = _
        rw [hl.head, hhead, hhead]
      · obtain ⟨u, hu, hu2⟩ := hl.tail
        refine ⟨u, hu, fun _ => ?_⟩
        rw [hu2 (by simp)]
        simp [lst_append]
      · rw [seg_append]
        refine ⟨?_, ?_⟩
        · refine seg_set_end hs1 (fun b hb => ?_) ?_
          · have hba : b ≠ a := fun h => ha1.1 (h ▸ hb)
            have hbp : b ≠ pv := fun h => hp1 (h ▸ hb)
            have hbn0 := h12 b (by simp [hb])
            simp only [addrs_cons, List.mem_cons, not_or] at hbn0
            simp [hfree, f3, e3, hba, hbp, hbn0.1]
          · simp [hfree, f3, hpa]
        · rw [lst_concat]
          refine seg_set_start hs2 (fun b hb => ?_) ?_
          · have hba : b ≠ a := fun h => ha2.2 (h ▸ hb)
            have hbp : b ≠ pv := fun h => hpn0.2 (h ▸ hb)
            have hbn : b ≠ nx := fun h => hn2.1 (h ▸ hb)
            simp [hfree, f3, e3, hba, hbp, hbn]
          · simp [hfree, f3, e3, hna, hpn.symm]

theorem eraseLevel_absent {s : TwoDList} {L : Nat} {l : Chain} {k : Int}
    (hl : LevelOK s L l) (hk : k ∉ keys l) : eraseLevel s k L = some s := by
  have hfuel := seg_length_le hl.seg hl.nodup
  unfold eraseLevel
  rcases List.eq_nil_or_concat l with rfl | ⟨l1, ⟨a, ka⟩, rfl⟩
  · simp [hl.head]
  · simp only [List.concat_eq_append] at *
    have hhd : hd (l1 ++ [(a, ka)]) none ≠ none := hd_append_cons_ne_none _ _ _ _
    simp only [keys_append, keys_cons, keys_nil, List.mem_append, List.mem_singleton,
      not_or] at hk
    have hwalk := eraseWalk_spec (k := k) hl.seg (fun x hx h => hk.1 (h ▸ hx))
      (Or.inr rfl) hfuel
    obtain ⟨n, hn, hnk, -, -⟩ := Heap.vw_some (seg_last hl.seg)
    simp [hl.head, hhd, hwalk, hn, hnk, hk.2]

theorem keys_del (k : Int) (l : Chain) : keys (del k l) = (keys l).filter (fun x => decide (x ≠ k)) := by
  induction l with
  | nil => rfl
  | cons x l ih =>
    obtain ⟨a, ka⟩ := x
    by_cases h : ka = k <;> simp [del, keys, List.filter_cons, h, List.filter_map] <;> rfl

theorem del_sublist (k : Int) (l : Chain) : (del k l).Sublist l := List.filter_sublist l

theorem del_eq_self {k : Int} {l : Chain} (h : k ∉ keys l) : del k l = l := by
  unfold del
  rw [List.filter_eq_self]
  intro x hx
  have : x.2 ∈ keys l := List.mem_map_of_mem _ hx
  simp only [ne_eq, decide_not, Bool.not_eq_eq_eq_not, Bool.not_true, decide_eq_false_iff_not]
  exact fun h2 => h (h2 ▸ this)

theorem eraseLevel_spec {s : TwoDList} {ch : Nat → Chain} {L : Nat} (k : Int)
    (hs : Struct s ch) (hL : L < s.maxLevels_) :
    ∃ t, eraseLevel s k L = some t ∧ t.maxLevels_ = s.maxLevels_ ∧
      Struct t (Function.update ch L (del k (ch L))) := by
  have hl := hs.level L hL
  by_cases hk : k ∈ keys (ch L)
  · obtain ⟨x, hx, hxk⟩ := List.mem_map.mp hk
    obtain ⟨a, ka⟩ := x
    simp only at hxk
    subst hxk
    obtain ⟨l1, l2, hl12⟩ := List.append_of_mem hx
    rw [hl12] at hl
    have hsorted := hl.sorted
    rw [keys_append, keys_cons, List.pairwise_append, List.pairwise_cons] at hsorted
    obtain ⟨hp1, ⟨hgt, hp2⟩, hlt⟩ := hsorted
    have hk1 : ∀ x ∈ keys l1, x ≠ ka := fun x hx => ne_of_lt (hlt x hx ka (List.mem_cons_self _ _))
    have hk2 : ∀ x ∈ keys l2, x ≠ ka := fun x hx => (ne_of_lt (hgt x hx)).symm
    have hdel : del ka (ch L) = l1 ++ l2 := by
      rw [hl12]
      unfold del
      rw [List.filter_append, List.filter_cons]
      simp only [ne_eq, not_true_eq_false, decide_False, Bool.false_eq_true, if_false]
      rw [List.filter_eq_self.mpr, List.filter_eq_self.mpr]
      · intro x hx; simpa using hk2 x.2 (List.mem_map_of_mem _ hx)
      · intro x hx; simpa using hk1 x.2 (List.mem_map_of_mem _ hx)
    obtain ⟨t, ht, hfr, hhead, htail, hseg⟩ := eraseLevel_found hl hk1
      (by rw [hs.hlen]; exact hL) (by rw [hs.tlen]; exact hL)
    have hsub : (l1 ++ l2).Sublist (l1 ++ (a, ka) :: l2) :=
      List.Sublist.append_left (List.sublist_cons_self _ _) _
    refine ⟨t, ht, hfr.maxLevels, ?_⟩
    rw [hdel]
    refine hs.relevel hfr ⟨hhead, htail, hseg, hl.sorted.sublist (hsub.map _),
      hl.nodup.sublist (hsub.map _)⟩ ?_ ?_
    · intro M hM hM2 b hb hb2
      rw [← hl12] at hb2
      exact hs.disj M L hM2 hL hM b hb hb2
    · intro M hM hM2 b hb hb2
      have : b ∈ addrs (ch L) := by
        rw [hl12]; exact (hsub.map _).subset hb
      exact hs.disj L M hL hM2 (Ne.symm hM) b this hb2
  · refine ⟨s, eraseLevel_absent hl hk, rfl, ?_⟩
    rw [del_eq_self hk, Function.update_eq_self]
    exact hs

theorem eraseLevels_spec {ch : Nat → Chain} (k : Int) (n : Nat) :
    ∀ {s : TwoDList}, Struct s ch → n ≤ s.maxLevels_ →
    ∃ t, eraseLevels k n s = some t ∧ t.maxLevels_ = s.maxLevels_ ∧
      Struct t (fun L => if L < n then del k (ch L) else ch L) := by
  induction n generalizing ch with
  | zero =>
    intro s hs _
    exact ⟨s, rfl, rfl, by simpa using hs⟩
  | succ n ih =>
    intro s hs hn
    obtain ⟨t1, e1, m1, hs1⟩ := eraseLevel_spec k hs (show n < s.maxLevels_ by omega)
    obtain ⟨t, e2, m2, hs2⟩ := ih hs1 (by omega)
    refine ⟨t, by simp [eraseLevels, e1, e2], by omega, ?_⟩
    have hfun : (fun L => if L < n then del k (Function.update ch n (del k (ch n)) L)
        else Function.update ch n (del k (ch n)) L)
        = (fun L => if L < n + 1 then del k (ch L) else ch L) := by
      funext L
      by_cases h1 : L < n
      · have h2 : L ≠ n := by omega
        have h3 : L < n + 1 := by omega
        simp [h1, h2, h3]
      · by_cases h2 : L = n
        · subst h2; simp
        · have h3 : ¬ L < n + 1 := by omega
          simp [h1, h2, h3]
    rw [← hfun]
    exact hs2

theorem lst_cons_mem (p : Ptr) (x : Nat × Int) (l : Chain) :
    ∃ b, lst p (x :: l) = some b ∧ b ∈ addrs (x :: l) := by
  induction l generalizing p x with
  | nil => obtain ⟨a, k⟩ := x; exact ⟨a, rfl, by simp⟩
  | cons y l ih =>
    obtain ⟨a, k⟩ := x
    obtain ⟨b, hb, hm⟩ := ih (some a) y
    exact ⟨b, hb, List.mem_cons_of_mem _ hm⟩

theorem levelIsEmpty_nil {s : TwoDList} {L : Nat} (hl : LevelOK s L []) :
    ∃ t, s.tails_[L]? = some t ∧ levelIsEmpty s L = some (decide (t = none)) := by
  obtain ⟨t, ht, -⟩ := hl.tail
  refine ⟨t, ht, ?_⟩
  have hh := hl.head
  simp only [hd_nil] at hh
  cases t <;> simp [levelIsEmpty, hh, ht]

theorem levelIsEmpty_single {s : TwoDList} {L : Nat} {x : Nat × Int} (hl : LevelOK s L [x]) :
    levelIsEmpty s L = some true := by
  obtain ⟨a, k⟩ := x
  obtain ⟨t, ht, ht2⟩ := hl.tail
  have hh := hl.head
  simp only [hd_cons] at hh
  have := ht2 (by simp)
  simp only [lst_cons, lst_nil] at this
  subst this
  simp [levelIsEmpty, hh, ht]

theorem levelIsEmpty_many {s : TwoDList} {L : Nat} {x y : Nat × Int} {l : Chain}
    (hl : LevelOK s L (x :: y :: l)) : levelIsEmpty s L = some false := by
  obtain ⟨a, k⟩ := x
  obtain ⟨t, ht, ht2⟩ := hl.tail
  have hh := hl.head
  simp only [hd_cons] at hh
  have := ht2 (by simp)
  simp only [lst_cons] at this
  obtain ⟨b, hb, hm⟩ := lst_cons_mem (some a) y l
  rw [hb] at this
  subst this
  have hnd := hl.nodup
  simp only [addrs_cons, List.nodup_cons] at hnd
  have hab : a ≠ b := fun h => hnd.1 (h ▸ hm)
  simp [levelIsEmpty, hh, ht, hab]

theorem containsLevels_spec {s : TwoDList} {ch : Nat → Chain} (k : Int) (hs : Struct s ch)
    (n : Nat) (hn : n ≤ s.maxLevels_) :
    containsLevels s k n = some (decide (∃ L, L < n ∧ Visible k (ch L))) := by
  induction n with
  | zero => simp [containsLevels]
  | succ n ih =>
    have ih := ih (by omega)
    have hl := hs.level n (by omega)
    have hfuel := seg_length_le hl.seg hl.nodup
    have hex : ∀ b : Bool, (b = true ↔ Visible k (ch n)) →
        (b || decide (∃ L, L < n ∧ Visible k (ch L))) =
          decide (∃ L, L < n + 1 ∧ Visible k (ch L)) := by
      intro b hb
      rw [Bool.eq_iff_iff]
      simp only [Bool.or_eq_true, decide_eq_true_eq, hb]
      constructor
      · rintro (h | ⟨L, hL, h⟩)
        · exact ⟨n, by omega, h⟩
        · exact ⟨L, by omega, h⟩
      · rintro ⟨L, hL, h⟩
        by_cases hLn : L = n
        · subst hLn; exact Or.inl h
        · exact Or.inr ⟨L, by omega, h⟩
    unfold containsLevels
    have hscan := containsScan_spec k hl.seg hfuel
    match hc : ch n with
    | [] =>
      rw [hc] at hl hscan
      obtain ⟨t, ht, he⟩ := levelIsEmpty_nil hl
      have := hex false (by simp [Visible, hc])
      simp only [Bool.false_or] at this
      simp only [hd_nil] at hscan
      cases t <;> simp [hl.head, he, ih, this, hscan]
    | [x] =>
      rw [hc] at hl
      have := hex false (by simp [Visible, hc])
      simp only [Bool.false_or] at this
      simp [hl.head, levelIsEmpty_single hl, ih, this]
    | x :: y :: l =>
      rw [hc] at hl hscan
      have := hex (decide (k ∈ keys (x :: y :: l))) (by simp [Visible, hc])
      simp only [hl.head, levelIsEmpty_many hl, Option.bind_eq_bind, Option.some_bind,
        Bool.not_false, if_true, hscan, ih]
      rw [← this]
      by_cases hk : k ∈ keys (x :: y :: l) <;> simp [hk]

theorem contains_spec {s : TwoDList} {ch : Nat → Chain} (k : Int) (hs : Struct s ch)
    (hH : 0 < s.maxLevels_) :
    contains s k = some (decide (∃ L, L < s.maxLevels_ ∧ Visible k (ch L))) := by
  unfold contains
  have h1 : s.maxLevels_ ≠ 0 := by omega
  have h2 : s.maxLevels_ - 1 < s.heads_.length := by rw [hs.hlen]; omega
  simp only [h1, if_false]
  rw [List.getElem?_eq_getElem h2]
  simp [containsLevels_spec k hs s.maxLevels_ (le_refl _)]

end TwoDList

namespace Chain

theorem lower_append_upper (k : Int) (l : Chain) : lower k l ++ upper k l = l :=
  List.takeWhile_append_dropWhile _ l

theorem lower_lt (k : Int) (l : Chain) : ∀ y ∈ keys (lower k l), y < k := by
  induction l with
  | nil => simp [lower]
  | cons x l ih =>
    obtain ⟨a, ka⟩ := x
    by_cases h : ka < k
    · simpa [lower, List.takeWhile_cons, h] using ih
    · simp [lower, List.takeWhile_cons, h]

theorem upper_head {k : Int} {l r : Chain} {c : Nat} {kc : Int}
    (h : upper k l = (c, kc) :: r) : ¬ kc < k := by
  induction l with
  | nil => simp [upper] at h
  | cons x l ih =>
    obtain ⟨a, ka⟩ := x
    by_cases h1 : ka < k
    · exact ih (by simpa [upper, List.dropWhile_cons, h1] using h)
    · simp only [upper, List.dropWhile_cons, h1, decide_False, Bool.false_eq_true, if_false,
        List.cons.injEq, Prod.mk.injEq] at h
      rw [← h.1.2]; exact h1

theorem keys_ins (x : Nat) (k : Int) (l : Chain) :
    keys (ins x k l) = List.orderedInsert (· ≤ ·) k (keys l) := by
  induction l with
  | nil => rfl
  | cons y l ih =>
    obtain ⟨a, ka⟩ := y
    by_cases h : ka < k
    · have h2 : ¬ k ≤ ka := not_le.mpr h
      have h3 : ins x k ((a, ka) :: l) = (a, ka) :: ins x k l := by
        simp [ins, lower, upper, List.takeWhile_cons, List.dropWhile_cons, h]
      rw [h3, keys_cons, keys_cons, ih, List.orderedInsert, if_neg h2]
    · have h2 : k ≤ ka := not_lt.mp h
      have h3 : ins x k ((a, ka) :: l) = (x, k) :: (a, ka) :: l := by
        simp [ins, lower, upper, List.takeWhile_cons, List.dropWhile_cons, h]
      rw [h3, keys_cons, keys_cons, List.orderedInsert, if_pos h2]

theorem sorted_ins {x : Nat} {k : Int} {l : Chain} (hs : (keys l).Pairwise (· < ·))
    (hk : k ∉ keys l) : (keys (ins x k l)).Pairwise (· < ·) := by
  have hlu := lower_append_upper k l
  have hs2 := hs
  rw [← hlu, keys_append, List.pairwise_append] at hs2
  obtain ⟨p1, p2, p3⟩ := hs2
  have hup : ∀ y ∈ keys (upper k l), k < y := by
    intro y hy
    have hyl : y ∈ keys l := by rw [← hlu, keys_append]; exact List.mem_append_right _ hy
    have hne : y ≠ k := fun h => hk (h ▸ hyl)
    match hu : upper k l with
    | [] => rw [hu] at hy; simp at hy
    | (c, kc) :: r =>
      have hc := upper_head hu
      rw [hu] at hy p2
      simp only [keys_cons, List.mem_cons, List.pairwise_cons] at hy p2
      rcases hy with rfl | hy
      · omega
      · have := p2.1 y hy; omega
  unfold ins
  rw [keys_append, keys_cons, List.pairwise_append, List.pairwise_cons]
  refine ⟨p1, ⟨hup, p2⟩, ?_⟩
  intro a ha b hb
  have := lower_lt k l a ha
  simp only [List.mem_cons] at hb
  rcases hb with rfl | hb
  · exact this
  · have := hup b hb; omega

end Chain

namespace TwoDList

theorem insertWalk_null (h : Heap) (fuel : Nat) (k : Int) : insertWalk h fuel none k = none := by
  cases fuel <;> simp [insertWalk]

theorem insertPoint_fault {s : TwoDList} {L : Nat} {d : Nat} (k : Int) (hl : LevelOK s L [])
    (ht : s.tails_[L]? = some (some d)) : insertPoint s k L = none := by
  obtain ⟨t, ht2, he⟩ := levelIsEmpty_nil hl
  rw [ht] at ht2
  have hh := hl.head
  simp only [hd_nil] at hh
  cases ht2
  simp [insertPoint, hh, he, insertWalk_null]

theorem insertPoint_spec {s : TwoDList} {L : Nat} {l : Chain} (k : Int) (hl : LevelOK s L l)
    (ht : l = [] → s.tails_[L]? = some none) : insertPoint s k L = some (insPt k l) := by
  have hfuel := seg_length_le hl.seg hl.nodup
  match l with
  | [] =>
    obtain ⟨t, ht2, he⟩ := levelIsEmpty_nil hl
    rw [ht rfl] at ht2
    cases ht2
    have hh := hl.head
    simp only [hd_nil] at hh
    simp [insertPoint, hh, he, insPt, upper]
  | [x] =>
    obtain ⟨a, ka⟩ := x
    have hh := hl.head
    simp only [hd_cons] at hh
    by_cases h : ka < k <;> simp [insertPoint, hh, levelIsEmpty_single hl, insPt, upper,
      List.dropWhile_cons, h]
  | x :: y :: l =>
    have hlu := lower_append_upper k (x :: y :: l)
    have hlow := lower_lt k (x :: y :: l)
    obtain ⟨t, ht1, ht2⟩ := hl.tail
    have ht3 := ht2 (by simp)
    unfold insertPoint insPt
    simp only [hl.head, levelIsEmpty_many hl, Option.bind_eq_bind, Option.some_bind]
    match hu : upper k (x :: y :: l) with
    | [] =>
      rw [hu, List.append_nil] at hlu
      rcases List.eq_nil_or_concat (lower k (x :: y :: l)) with h0 | ⟨l1, ⟨a, ka⟩, h0⟩
      · rw [h0] at hlu; simp at hlu
      · simp only [List.concat_eq_append] at h0
        rw [h0] at hlu hlow
        have hseg := hl.seg
        rw [← hlu] at hseg hfuel ht3 ⊢
        have hw := insertWalk_spec (k := k) hseg
          (fun z hz => hlow z (by simp [hz])) (Or.inr rfl) hfuel
        obtain ⟨n, hn, hnk, -, -⟩ := Heap.vw_some (seg_last hseg)
        have hka : ka < k := hlow ka (by simp)
        simp [hw, hn, hnk, hka, ht1, ht3]
    | (c, kc) :: r =>
      rw [hu] at hlu
      have hseg := hl.seg
      rw [← hlu] at hseg hfuel ⊢
      have hc := upper_head hu
      have hw := insertWalk_spec (k := k) hseg hlow (Or.inl hc) hfuel
      have hseg2 := (seg_append.mp hseg).2
      obtain ⟨n, hn, hnk, -, -⟩ := Heap.vw_some hseg2.1
      simp [hw, hn, hnk, hc]

theorem nodup_ins {x : Nat} {k : Int} {l : Chain} (hn : (addrs l).Nodup) (hx : x ∉ addrs l) :
    (addrs (ins x k l)).Nodup := by
  unfold ins
  rw [addrs_append, addrs_cons, List.nodup_middle, ← addrs_append, lower_append_upper]
  exact List.nodup_cons.mpr ⟨hx, hn⟩

theorem addrs_ins (x : Nat) (k : Int) (l : Chain) : ∀ a, a ∈ addrs (ins x k l) ↔ a = x ∨ a ∈ addrs l := by
  intro a
  conv_rhs => rw [← lower_append_upper k l]
  simp only [ins, addrs_append, addrs_cons, List.mem_append, List.mem_cons]
  tauto

theorem addBefore_spec {s : TwoDList} {L : Nat} {l : Chain} {x : Nat} {k : Int}
    (hl : LevelOK s L l) (hx : s.heap.vw x = some (k, none, none)) (hxl : x ∉ addrs l)
    (hk : k ∉ keys l) (hL : L < s.heads_.length) (hL2 : L < s.tails_.length) :
    ∃ t, addBefore s x (insPt k l) L = some t ∧ FrameAt s t L (x :: addrs l) ∧
      LevelOK t L (ins x k l) ∧ t.heap.length = s.heap.length := by
  have hsorted := sorted_ins (x := x) hl.sorted hk
  have hnodup := nodup_ins (k := k) hl.nodup hxl
  have hlu := lower_append_upper k l
  have hlow := lower_lt k l
  obtain ⟨nw, hnw, hnwk, -, -⟩ := Heap.vw_some hx
  unfold addBefore
  simp only [hl.head, Option.bind_eq_bind, Option.some_bind]
  match hu : upper k l, hlo : lower k l with
  | [], [] =>
    rw [hu, hlo] at hlu
    simp only [List.append_nil] at hlu
    subst hlu
    simp only [hd_nil, if_true]
    refine ⟨_, rfl, ⟨rfl, by simp, by simp, fun M hM => by simp [List.getElem?_set_ne hM.symm],
      fun M hM => by simp [List.getElem?_set_ne hM.symm], fun _ _ _ => rfl, le_refl _⟩, ?_, rfl⟩
    have hi : ins x k [] = [(x, k)] := rfl
    rw [hi]
    exact ⟨by simp [hL], ⟨some x, by simp [hL2], fun _ => rfl⟩, ⟨by simpa using hx, trivial⟩,
      by simp, by simp⟩
  | [], y :: l1 =>
    rw [hu, List.append_nil] at hlu
    have hne : l ≠ [] := by rw [← hlu, hlo]; simp
    rcases List.eq_nil_or_concat l with h0 | ⟨l0, ⟨a, ka⟩, h0⟩
    · exact absurd h0 hne
    simp only [List.concat_eq_append] at h0
    subst h0
    have hka : ka < k := hlow ka (by rw [hlu]; simp)
    have hpt : insPt k (l0 ++ [(a, ka)]) = some a := by
      unfold insPt; rw [hu]; simp [lst_concat]
    have hins : ins x k (l0 ++ [(a, ka)]) = l0 ++ [(a, ka)] ++ [(x, k)] := by
      unfold ins; rw [hu, hlu]
    have hva := seg_last hl.seg
    obtain ⟨n, hn, hnk, -, -⟩ := Heap.vw_some hva
    have hxa : x ≠ a := fun h => hxl (by simp [h])
    have hhd : hd (l0 ++ [(a, ka)]) none ≠ none := hd_append_cons_ne_none _ _ _ _
    have key : ∀ h2 : Heap, h2.length = s.heap.length →
        (∀ b, h2.vw b = if b = x then some (k, some a, none)
          else if b = a then some (ka, lst none l0, some x) else s.heap.vw b) →
        FrameAt s { s with heap := h2, tails_ := s.tails_.set L (some x) } L
          (x :: addrs (l0 ++ [(a, ka)])) ∧
        LevelOK { s with heap := h2, tails_ := s.tails_.set L (some x) } L
          (ins x k (l0 ++ [(a, ka)])) ∧ h2.length = s.heap.length := by
      intro h2 hlen hv
      refine ⟨⟨rfl, rfl, by simp, fun M _ => rfl,
        fun M hM => by simp [List.getElem?_set_ne hM.symm], fun b hb _ => ?_, by simp [hlen]⟩,
        ?_, hlen⟩
      · simp only [addrs_append, addrs_cons, addrs_nil, List.mem_cons, List.mem_append,
          List.mem_singleton, List.not_mem_nil, or_false, not_or] at hb
        rw [hv]; simp [hb.1, hb.2.2]
      · rw [hins] at hsorted hnodup ⊢
        refine ⟨?_, ⟨some x, by simp [hL2], fun _ => by simp [lst_append]⟩, ?_, hsorted, hnodup⟩
        · show s.heads_[L]? = _
          rw [hl.head, hd_append, hd_append, hd_append]; simp
        · rw [seg_append]
          refine ⟨?_, ?_⟩
          · refine seg_set_end hl.seg (fun b hb => ?_) ?_
            · have hbx : b ≠ x := fun h => hxl (by simp [← h, hb])
              have hba : b ≠ a := by
                have := (nodup_split hl.nodup).1
                exact fun h => this (h ▸ hb)
              simp [hv, hbx, hba]
            · simp [hv, hxa.symm]
          · simp [seg_cons, hv, lst_concat]
    rw [hpt]
    simp only [if_neg hhd, Option.some_bind, hn, hnw, hnk, hnwk, hka, decide_True, gt_iff_lt,
      not_lt_of_gt hka, decide_False, if_true]
    obtain ⟨g1, e1, e2, e3⟩ := Heap.setNext_spec (some x) hva
    have hx1 : g1.vw x = some (k, none, none) := by rw [e3]; simp [hxa, hx]
    obtain ⟨g2, f1, f2, f3⟩ := Heap.setPrev_spec (some a) hx1
    obtain ⟨g3, e1', e2', e3'⟩ := Heap.setPrev_spec (some a) hx
    have ha3 : g3.vw a = some (ka, lst none l0, none) := by rw [e3']; simp [hxa.symm, hva]
    obtain ⟨g4, f1', f2', f3'⟩ := Heap.setNext_spec (some x) ha3
    by_cases hah : some a = hd (l0 ++ [(a, ka)]) none
    · simp only [← hah, if_true, Option.some_bind, e1, f1]
      refine ⟨_, rfl, key g2 (by rw [f2, e2]) (fun b => ?_)⟩
      rw [f3, e3]
    · simp only [if_neg hah, Option.some_bind, Bool.false_eq_true, if_false, e1', f1']
      refine ⟨_, rfl, key g4 (by rw [f2', e2']) (fun b => ?_)⟩
      rw [f3', e3']
      by_cases hbx : b = x
      · simp [hbx, hxa]
      · simp [hbx]
  | (c, kc) :: l2, [] =>
    rw [hu, hlo, List.nil_append] at hlu
    subst hlu
    have hins : ins x k ((c, kc) :: l2) = (x, k) :: (c, kc) :: l2 := by
      unfold ins; rw [hu, hlo]; rfl
    have hpt : insPt k ((c, kc) :: l2) = some c := by
      unfold insPt; rw [hu]
    have hkc : k < kc := by
      have h1 := upper_head hu
      have h2 : kc ≠ k := fun h => hk (by simp [h])
      omega
    have hvc := hl.seg.1
    obtain ⟨n, hn, hnk, -, -⟩ := Heap.vw_some hvc
    have hxc : x ≠ c := fun h => hxl (by simp [h])
    obtain ⟨g1, e1, e2, e3⟩ := Heap.setNext_spec (some c) hx
    have hc1 : g1.vw c = some (kc, none, hd l2 none) := by rw [e3]; simp [hxc.symm, hvc]
    obtain ⟨g2, f1, f2, f3⟩ := Heap.setPrev_spec (some x) hc1
    rw [hpt]
    simp only [hd_cons, if_true, Option.some_bind, hn, hnw, hnk, hnwk, not_lt_of_gt hkc,
      decide_False, Bool.false_eq_true, if_false, gt_iff_lt, hkc, decide_True, e1, f1,
      reduceCtorEq]
    refine ⟨_, rfl, ⟨rfl, by simp, rfl, fun M hM => by simp [List.getElem?_set_ne hM.symm],
      fun M _ => rfl, fun b hb _ => ?_, by simp [f2, e2]⟩, ?_, by simp [f2, e2]⟩
    · simp only [addrs_cons, List.mem_cons, not_or] at hb
      show g2.vw b = _
      rw [f3, e3]; simp [hb.1, hb.2.1]
    · rw [hins] at hsorted hnodup ⊢
      obtain ⟨u, hu1, hu2⟩ := hl.tail
      refine ⟨by simp [hL], ⟨u, hu1, fun _ => by simpa using hu2 (by simp)⟩, ?_, hsorted, hnodup⟩
      show Seg g2 none ((x, k) :: (c, kc) :: l2) none
      refine ⟨by rw [f3, e3]; simp [hxc], ?_⟩
      refine seg_set_start hl.seg (fun b hb => ?_) (by rw [f3]; simp)
      have hbx : b ≠ x := fun h => hxl (by simp [← h, hb])
      have hbc : b ≠ c := by
        have := hl.nodup
        simp only [addrs_cons, List.nodup_cons] at this
        exact fun h => this.1 (h ▸ hb)
      rw [f3, e3]; simp [hbx, hbc]
  | (c, kc) :: l2, y :: l1 =>
    rw [hu] at hlu
    rcases List.eq_nil_or_concat (lower k l) with h0 | ⟨l0, ⟨pv, kp⟩, h0⟩
    · rw [h0] at hlo; simp at hlo
    simp only [List.concat_eq_append] at h0
    rw [h0] at hlu
    subst hlu
    have hins : ins x k (l0 ++ [(pv, kp)] ++ (c, kc) :: l2)
        = l0 ++ [(pv, kp)] ++ (x, k) :: (c, kc) :: l2 := by
      unfold ins; rw [hu, h0]
    have hpt : insPt k (l0 ++ [(pv, kp)] ++ (c, kc) :: l2) = some c := by
      unfold insPt; rw [hu]
    have hkc : k < kc := by
      have h1 := upper_head hu
      have h2 : kc ≠ k := fun h => hk (by simp [h])
      omega
    have hseg := hl.seg
    rw [seg_append] at hseg
    obtain ⟨hs1, hvc, hs2⟩ := hseg
    rw [lst_concat] at hvc
    simp only [hd_cons] at hs1
    have hvp := seg_last hs1
    obtain ⟨n, hn, hnk, -, -⟩ := Heap.vw_some hvc
    obtain ⟨hc1, hc2, h12, hn1, hn2⟩ := nodup_split hl.nodup
    obtain ⟨hp1, -, -, -, -⟩ := nodup_split hn1
    simp only [addrs_append, addrs_cons, addrs_nil, List.mem_append, List.mem_singleton,
      List.mem_cons, List.not_mem_nil, or_false, not_or] at hc1 hxl
    have hxc : x ≠ c := hxl.2.1
    have hxp : x ≠ pv := hxl.1.2
    have hcp : c ≠ pv := hc1.2
    have hhead : ∀ l3 : Chain, hd (l0 ++ [(pv, kp)] ++ l3) none = hd (l0 ++ [(pv, kp)]) none := by
      intro l3
      cases l0 with
      | nil => simp
      | cons z l0 => obtain ⟨d, kd⟩ := z; simp
    have hch : ¬ some c = hd (l0 ++ [(pv, kp)] ++ (c, kc) :: l2) none := by
      rw [hhead]
      intro h
      have := hd_mem h.symm (by simp)
      simp only [addrs_append, addrs_cons, addrs_nil, List.mem_append, List.mem_singleton] at this
      rcases this with h | h
      · exact hc1.1 h
      · exact hcp h
    have hhd : hd (l0 ++ [(pv, kp)] ++ (c, kc) :: l2) none ≠ none :=
      hd_append_cons_ne_none _ _ _ _
    obtain ⟨g1, e1, e2, e3⟩ := Heap.setNext_spec (some c) hx
    have hc1v : g1.vw c = some (kc, some pv, hd l2 none) := by rw [e3]; simp [hxc.symm, hvc]
    obtain ⟨nx1, hnx1, -, hnx1p, -⟩ := Heap.vw_some hc1v
    have hx1v : g1.vw x = some (k, none, some c) := by rw [e3]; simp
    obtain ⟨g2, f1, f2, f3⟩ := Heap.setPrev_spec (some pv) hx1v
    have hx2v : g2.vw x = some (k, some pv, some c) := by rw [f3]; simp
    obtain ⟨nw2, hnw2, -, hnw2p, -⟩ := Heap.vw_some hx2v
    have hp2v : g2.vw pv = some (kp, lst none l0, some c) := by
      rw [f3, e3]; simp [hxp.symm, hvp]
    obtain ⟨g3, e1', e2', e3'⟩ := Heap.setNext_spec (some x) hp2v
    have hc3v : g3.vw c = some (kc, some pv, hd l2 none) := by
      rw [e3', f3]; simp [hcp, hxc.symm, hc1v]
    obtain ⟨g4, f1', f2', f3'⟩ := Heap.setPrev_spec (some x) hc3v
    rw [hpt]
    simp only [if_neg hhd, if_neg hch, Option.some_bind, Bool.false_eq_true, if_false, hn, hnw,
      hnk, hnwk, not_lt_of_gt hkc, e1, hnx1, hnx1p, f1, hnw2, hnw2p, e1', f1']
    have hlen : g4.length = s.heap.length := by rw [f2', e2', f2, e2]
    have hv4 : ∀ b, g4.vw b = if b = c then some (kc, some x, hd l2 none)
        else if b = pv then some (kp, lst none l0, some x)
        else if b = x then some (k, some pv, some c) else s.heap.vw b := by
      intro b; rw [f3', e3', f3, e3]
      by_cases hbx : b = x
      · simp [hbx, hxc, hxp]
      · simp [hbx]
    refine ⟨_, rfl, ⟨rfl, rfl, rfl, fun M _ => rfl, fun M _ => rfl, fun b hb _ => ?_,
      by simp [hlen]⟩, ?_, hlen⟩
    · simp only [addrs_append, addrs_cons, addrs_nil, List.mem_append, List.mem_singleton,
        List.mem_cons, List.not_mem_nil, or_false, not_or] at hb
      show g4.vw b = _
      rw [hv4]; simp [hb.1, hb.2.1.2, hb.2.2.1]
    · rw [hins] at hsorted hnodup ⊢
      obtain ⟨u, hu1, hu2⟩ := hl.tail
      refine ⟨?_, ⟨u, hu1, fun _ => ?_⟩, ?_, hsorted, hnodup⟩
      · show s.heads_[L]? = _
        rw [hl.head, hhead, hhead]
      · rw [hu2 (by simp)]; simp [lst_append]
      · show Seg g4 none (l0 ++ [(pv, kp)] ++ (x, k) :: (c, kc) :: l2) none
        rw [seg_append]
        refine ⟨?_, ?_, ?_⟩
        · refine seg_set_end hs1 (fun b hb => ?_) (by rw [hv4]; simp [hcp.symm])
          have hbx : b ≠ x := fun h => hxl.1.1 (h ▸ hb)
          have hbp : b ≠ pv := fun h => hp1 (h ▸ hb)
          have hbc : b ≠ c := fun h => hc1.1 (h ▸ hb)
          rw [hv4]; simp [hbx, hbp, hbc]
        · rw [hv4, lst_concat]; simp [hxc, hxp]
        · refine seg_set_start (p := some pv) ⟨hvc, hs2⟩ (fun b hb => ?_) (by rw [hv4]; simp)
          have hbx : b ≠ x := fun h => hxl.2.2 (h ▸ hb)
          have hbp : b ≠ pv := fun h => h12 pv (by simp) (by simp [← h, hb])
          have hbc : b ≠ c := fun h => hc2 (h ▸ hb)
          rw [hv4]; simp [hbx, hbp, hbc]

theorem Struct.congr {s : TwoDList} {ch ch2 : Nat → Chain} (hs : Struct s ch)
    (h : ∀ L, L < s.maxLevels_ → ch2 L = ch L) : Struct s ch2 := by
  refine ⟨hs.hlen, hs.tlen, fun L hL => by rw [h L hL]; exact hs.level L hL, ?_⟩
  intro L M hL hM hLM a ha
  rw [h L hL] at ha
  rw [h M hM]
  exact hs.disj L M hL hM hLM a ha

theorem Struct.addr_lt {s : TwoDList} {ch : Nat → Chain} (hs : Struct s ch) {L : Nat}
    (hL : L < s.maxLevels_) {a : Nat} (ha : a ∈ addrs (ch L)) : a < s.heap.length :=
  seg_lt (hs.level L hL).seg a ha

theorem Struct.live {s : TwoDList} {ch : Nat → Chain} (hs : Struct s ch) {L : Nat}
    (hL : L < s.maxLevels_) {a : Nat} (ha : a ∈ addrs (ch L)) :
    ∃ w, s.heap.vw a = some w := by
  obtain ⟨x, hx, rfl⟩ := List.mem_map.mp ha
  obtain ⟨q, r, h⟩ := seg_vw (hs.level L hL).seg (a := x.1) (k := x.2) hx
  exact ⟨_, h⟩

/-- Changing only the heap, in a way that leaves the key, `prev_` and `next_` of
every node of every chain as they were, preserves the structure. -/
theorem Struct.reheap {s : TwoDList} {ch : Nat → Chain} (hs : Struct s ch) (h1 : Heap)
    (hv : ∀ b, b < s.heap.length → h1.vw b = s.heap.vw b) :
    Struct { s with heap := h1 } ch := by
  refine ⟨hs.hlen, hs.tlen, fun L hL => ?_, hs.disj⟩
  have h0 := hs.level L hL
  exact ⟨h0.head, h0.tail, seg_congr (fun b hb => hv b (seg_lt h0.seg b hb)) h0.seg,
    h0.sorted, h0.nodup⟩

theorem insertAt_spec {s : TwoDList} {ch : Nat → Chain} {L : Nat} {k : Int}
    (hs : Struct s ch) (hL : L < s.maxLevels_) (hk : k ∉ keys (ch L)) :
    ∃ t, addBefore { s with heap := (s.heap.alloc k).2 } s.heap.length (insPt k (ch L)) L
        = some t ∧
      Struct t (Function.update ch L (ins s.heap.length k (ch L))) ∧
      t.maxLevels_ = s.maxLevels_ ∧ t.heap.length = s.heap.length + 1 ∧
      (∀ M, M ≠ L → t.tails_[M]? = s.tails_[M]?) := by
  have hs1 : Struct { s with heap := (s.heap.alloc k).2 } ch :=
    hs.reheap _ (fun b hb => by rw [Heap.vw_alloc]; simp [Nat.ne_of_lt hb])
  have hx : ({ s with heap := (s.heap.alloc k).2 } : TwoDList).heap.vw s.heap.length
      = some (k, none, none) := by
    show (s.heap.alloc k).2.vw s.heap.length = _
    rw [Heap.vw_alloc]; simp
  have hfresh : ∀ M, M < s.maxLevels_ → s.heap.length ∉ addrs (ch M) :=
    fun M hM h => Nat.lt_irrefl _ (hs.addr_lt hM h)
  obtain ⟨t, ht, hfr, hlv, hlen⟩ := addBefore_spec (hs1.level L hL) hx (hfresh L hL) hk
    (by show L < s.heads_.length; rw [hs.hlen]; exact hL)
    (by show L < s.tails_.length; rw [hs.tlen]; exact hL)
  refine ⟨t, ht, hs1.relevel hfr hlv ?_ ?_, hfr.maxLevels, ?_, hfr.tails⟩
  · intro M hM hM2 a ha ha2
    simp only [List.mem_cons] at ha2
    rcases ha2 with rfl | ha2
    · exact hfresh M hM2 ha
    · exact hs.disj M L hM2 hL hM a ha ha2
  · intro M hM hM2 a ha ha2
    rcases (addrs_ins _ _ _ a).mp ha with rfl | ha
    · exact hfresh M hM2 ha2
    · exact hs.disj L M hL hM2 (Ne.symm hM) a ha ha2
  · rw [hlen]; simp [Heap.alloc]

theorem promoted_le (g : Coins) (n : Nat) : promoted g n ≤ n := by
  induction n generalizing g with
  | zero => simp [promoted]
  | succ n ih =>
    unfold promoted
    split
    · have := ih (fun i => g (i + 1)); omega
    · omega

theorem promote_spec (k : Int) (nn : Nat) (ptrs : List Ptr) (fuel : Nat) :
    ∀ (higher : Nat) (s : TwoDList) (g : Coins) (ch : Nat → Chain),
    Struct s ch → 1 ≤ higher → s.maxLevels_ - higher < fuel → higher ≤ s.maxLevels_ →
    nn ∈ addrs (ch 0) →
    (∀ L, higher ≤ L → L < s.maxLevels_ → ptrs[L]? = some (insPt k (ch L)) ∧ k ∉ keys (ch L)) →
    ∃ (t : TwoDList) (g1 : Coins) (xs : Nat → Nat), promote k nn ptrs fuel higher s g = some (t, g1) ∧
      t.maxLevels_ = s.maxLevels_ ∧
      Struct t (fun L => if higher ≤ L ∧ L < higher + promoted g (s.maxLevels_ - higher)
        then ins (xs L) k (ch L) else ch L) ∧
      (∀ L, L < higher ∨ higher + promoted g (s.maxLevels_ - higher) ≤ L →
        t.tails_[L]? = s.tails_[L]?) := by
  induction fuel with
  | zero => intro higher s g ch _ _ hf; omega
  | succ fuel ih =>
    intro higher s g ch hs h1 hf hle hnn hp
    unfold promote
    simp only [alsoHigher]
    by_cases hc : g 0 = true ∧ higher < s.maxLevels_
    · obtain ⟨hc1, hc2⟩ := hc
      obtain ⟨hp1, hp2⟩ := hp higher (le_refl _) hc2
      obtain ⟨t1, e1, hs1, m1, len1, tl1⟩ := insertAt_spec hs hc2 hp2
      have hnn1 : nn ∈ addrs (Function.update ch higher (ins s.heap.length k (ch higher)) 0) := by
        rw [Function.update_noteq (by omega)]; exact hnn
      obtain ⟨w, hw⟩ := hs1.live (L := 0) (by omega) hnn1
      obtain ⟨h2, e2, len2, v2⟩ := Heap.setUp_spec (some s.heap.length) hw
      have hnw : s.heap.length ∈ addrs
          (Function.update ch higher (ins s.heap.length k (ch higher)) higher) := by
        rw [Function.update_same]; exact (addrs_ins _ _ _ _).mpr (Or.inl rfl)
      obtain ⟨w2, hw2⟩ := hs1.live (L := higher) (by omega) hnw
      rw [← v2] at hw2
      obtain ⟨h3, e3, len3, v3⟩ := Heap.setDown_spec (some nn) hw2
      have hs3 : Struct { t1 with heap := h3 }
          (Function.update ch higher (ins s.heap.length k (ch higher))) :=
        hs1.reheap h3 (fun b _ => by rw [v3, v2])
      obtain ⟨t, g1, xs, e4, m4, hs4, tl4⟩ := ih (higher + 1) { t1 with heap := h3 }
        (fun i => g (i + 1)) _ hs3 (by omega) (by show t1.maxLevels_ - (higher + 1) < fuel; omega)
        (by show higher + 1 ≤ t1.maxLevels_; omega) hnn1
        (fun L hL1 hL2 => by
          rw [Function.update_noteq (by omega)]
          exact hp L (by omega) (by rw [← m1]; exact hL2))
      have hm : ({ t1 with heap := h3 } : TwoDList).maxLevels_ = s.maxLevels_ := m1
      rw [hm] at m4 hs4 tl4
      have hprom : promoted g (s.maxLevels_ - higher)
          = 1 + promoted (fun i => g (i + 1)) (s.maxLevels_ - (higher + 1)) := by
        have : s.maxLevels_ - higher = (s.maxLevels_ - (higher + 1)) + 1 := by omega
        rw [this, promoted, if_pos hc1]
      refine ⟨t, g1, Function.update xs higher s.heap.length, ?_, m4, ?_, ?_⟩
      · simp only [hc1, hc2, decide_True, Bool.and_self, if_true, Heap.alloc, hp1,
          Option.bind_eq_bind, Option.some_bind]
        simp only [Heap.alloc] at e1
        simp only [e1, Option.some_bind, e2, e3, e4]
      · refine hs4.congr (fun L hL => ?_)
        rw [hprom]
        by_cases hLh : L = higher
        · subst hLh
          have h5 : ¬ (L + 1 ≤ L ∧ L < L + 1 + promoted (fun i => g (i + 1))
              (s.maxLevels_ - (L + 1))) := by omega
          have h6 : L ≤ L ∧ L < L + (1 + promoted (fun i => g (i + 1))
              (s.maxLevels_ - (L + 1))) := by omega
          simp only [h5, h6, if_false, if_true, and_self, Function.update_same]
        · simp only [Function.update_noteq hLh]
          by_cases h7 : higher ≤ L ∧ L < higher + (1 + promoted (fun i => g (i + 1))
              (s.maxLevels_ - (higher + 1)))
          · have h8 : higher + 1 ≤ L ∧ L < higher + 1 + promoted (fun i => g (i + 1))
                (s.maxLevels_ - (higher + 1)) := by omega
            simp only [h7, h8, and_self, if_true]
          · have h8 : ¬ (higher + 1 ≤ L ∧ L < higher + 1 + promoted (fun i => g (i + 1))
                (s.maxLevels_ - (higher + 1))) := by omega
            simp only [h7, h8, if_false]
      · intro L hL
        rw [hprom] at hL
        rw [tl4 L (by omega)]
        exact tl1 L (by omega)
    · have hprom : promoted g (s.maxLevels_ - higher) = 0 := by
        by_cases hlt : higher < s.maxLevels_
        · have hg : g 0 ≠ true := fun h => hc ⟨h, hlt⟩
          have : s.maxLevels_ - higher = (s.maxLevels_ - (higher + 1)) + 1 := by omega
          rw [this, promoted, if_neg hg]
        · have : s.maxLevels_ - higher = 0 := by omega
          rw [this]; rfl
      refine ⟨s, fun i => g (i + 1), fun _ => 0, ?_, rfl, ?_, fun _ _ => rfl⟩
      · have : (g 0 && decide (higher < s.maxLevels_)) = false := by
          rw [Bool.and_eq_false_iff]
          by_cases hg : g 0 = true
          · right; simpa using fun h => hc ⟨hg, h⟩
          · left; simpa using hg
        simp [this]
      · refine hs.congr (fun L _ => ?_)
        rw [hprom]
        have : ¬ (higher ≤ L ∧ L < higher + 0) := by omega
        simp only [this, if_false]

theorem collectPtrs_ok {s : TwoDList} {ch : Nat → Chain} (k : Int) (hs : Struct s ch) (n : Nat) :
    ∀ ptrs : List Ptr, n ≤ s.maxLevels_ → ptrs.length = s.maxLevels_ →
    (∀ L, L < n → ch L = [] → s.tails_[L]? = some none) →
    ∃ r, collectPtrs s k n ptrs = some r ∧ r.length = s.maxLevels_ ∧
      (∀ L, L < n → r[L]? = some (insPt k (ch L))) ∧ (∀ L, n ≤ L → r[L]? = ptrs[L]?) := by
  induction n with
  | zero => intro ptrs _ hp _; exact ⟨ptrs, rfl, hp, fun L hL => by omega, fun _ _ => rfl⟩
  | succ n ih =>
    intro ptrs hn hp ht
    have h1 := insertPoint_spec k (hs.level n (by omega)) (ht n (by omega))
    obtain ⟨r, e, hr1, hr2, hr3⟩ := ih (ptrs.set n (insPt k (ch n))) (by omega) (by simpa using hp)
      (fun L hL => ht L (by omega))
    refine ⟨r, ?_, hr1, fun L hL => ?_, fun L hL => ?_⟩
    · have : n < ptrs.length := by omega
      simp [collectPtrs, h1, this, e]
    · by_cases hLn : L = n
      · subst hLn
        rw [hr3 L (le_refl _), List.getElem?_set_self (by omega)]
      · exact hr2 L (by omega)
    · rw [hr3 L (by omega), List.getElem?_set_ne (by omega)]

theorem collectPtrs_fault {s : TwoDList} {ch : Nat → Chain} (k : Int) (hs : Struct s ch) (n : Nat) :
    ∀ ptrs : List Ptr, n ≤ s.maxLevels_ →
    (∃ L d, L < n ∧ ch L = [] ∧ s.tails_[L]? = some (some d)) →
    collectPtrs s k n ptrs = none := by
  induction n with
  | zero => intro ptrs _ ⟨L, d, hL, _⟩; omega
  | succ n ih =>
    intro ptrs hn ⟨L, d, hL, hc, ht⟩
    unfold collectPtrs
    by_cases hLn : L = n
    · subst hLn
      have hl := hs.level L (by omega)
      rw [hc] at hl
      simp [insertPoint_fault k hl ht]
    · have := fun p => ih p (by omega) ⟨L, d, by omega, hc, ht⟩
      cases insertPoint s k n with
      | none => rfl
      | some p => simp only [Option.bind_eq_bind, Option.some_bind, this]; split <;> rfl

theorem addBefore_dup {s : TwoDList} {L : Nat} {b x : Nat} {k : Int}
    (hl : LevelOK s L [(b, k)]) (hx : s.heap.vw x = some (k, none, none)) (hxb : x ≠ b) :
    addBefore s x (some b) L = none := by
  obtain ⟨nw, hnw, hnwk, -, -⟩ := Heap.vw_some hx
  have hvb := hl.seg.1
  simp only [hd_nil] at hvb
  obtain ⟨n, hn, hnk, -, -⟩ := Heap.vw_some hvb
  have hh := hl.head
  simp only [hd_cons] at hh
  obtain ⟨g1, e1, e2, e3⟩ := Heap.setNext_spec (some b) hx
  have hb1 : g1.vw b = some (k, none, none) := by rw [e3]; simp [hxb.symm, hvb]
  obtain ⟨nx1, hnx1, -, hnx1p, -⟩ := Heap.vw_some hb1
  have hx1 : g1.vw x = some (k, none, some b) := by rw [e3]; simp
  obtain ⟨g2, f1, f2, f3⟩ := Heap.setPrev_spec none hx1
  have hx2 : g2.vw x = some (k, none, some b) := by rw [f3]; simp
  obtain ⟨nw2, hnw2, -, hnw2p, -⟩ := Heap.vw_some hx2
  unfold addBefore
  simp [hh, hn, hnw, hnk, hnwk, e1, hnx1, hnx1p, f1, hnw2, hnw2p]

theorem insPt_single (b : Nat) (k kb : Int) : insPt k [(b, kb)] = some b := by
  by_cases h : kb < k <;> simp [insPt, upper, List.dropWhile_cons, h]

theorem mem_keys_ins {x : Nat} {k y : Int} {l : Chain} :
    y ∈ keys (ins x k l) ↔ y = k ∨ y ∈ keys l := by
  conv_rhs => rw [← lower_append_upper k l]
  simp only [ins, keys_append, keys_cons, List.mem_append, List.mem_cons]
  tauto

theorem Inv.incl_zero {s : TwoDList} {ch : Nat → Chain} (hi : Inv s ch) {L : Nat}
    (hL : L < s.maxLevels_) : ∀ x ∈ keys (ch L), x ∈ keys (ch 0) := by
  induction L with
  | zero => exact fun x hx => hx
  | succ L ih => exact fun x hx => ih (by omega) x (hi.incl L hL x hx)

theorem visible_iff {s : TwoDList} {ch : Nat → Chain} (hi : Inv s ch) (hH : 0 < s.maxLevels_)
    (k : Int) : (∃ L, L < s.maxLevels_ ∧ Visible k (ch L)) ↔ Visible k (ch 0) := by
  constructor
  · rintro ⟨L, hL, h2, hk⟩
    refine ⟨?_, hi.incl_zero hL k hk⟩
    have hsub : keys (ch L) ⊆ keys (ch 0) := fun x hx => hi.incl_zero hL x hx
    have hnd : (keys (ch L)).Nodup :=
      ((hi.struct.level L hL).sorted.imp (fun h => ne_of_lt h))
    have := (List.subperm_of_subset hnd hsub).length_le
    simp only [keys, List.length_map] at this
    omega
  · exact fun h => ⟨0, hH, h⟩

theorem contains_eq {s : TwoDList} {ch : Nat → Chain} (hi : Inv s ch) (hH : 0 < s.maxLevels_)
    (k : Int) : contains s k = some (decide (Visible k (ch 0))) := by
  rw [contains_spec k hi.struct hH]
  congr 1
  rw [Bool.eq_iff_iff]
  simp only [decide_eq_true_eq]
  exact visible_iff hi hH k

theorem mem_keys_del {k y : Int} {l : Chain} : y ∈ keys (del k l) ↔ y ∈ keys l ∧ y ≠ k := by
  rw [keys_del, List.mem_filter]
  simp

theorem erase_hit {s : TwoDList} {ch : Nat → Chain} (hi : Inv s ch) (hH : 0 < s.maxLevels_)
    {k : Int} (hv : Visible k (ch 0)) :
    ∃ t, erase s k = some (true, t) ∧ t.maxLevels_ = s.maxLevels_ ∧
      Inv t (fun L => del k (ch L)) := by
  obtain ⟨t, e, m, hs⟩ := eraseLevels_spec k s.maxLevels_ hi.struct (le_refl _)
  refine ⟨t, ?_, m, hs.congr (fun L hL => by rw [m] at hL; simp [hL]), ?_⟩
  · simp [erase, contains_eq hi hH k, hv, e]
  · intro L hL x hx
    rw [m] at hL
    rw [mem_keys_del] at hx ⊢
    exact ⟨hi.incl L hL x hx.1, hx.2⟩

theorem erase_miss {s : TwoDList} {ch : Nat → Chain} (hi : Inv s ch) (hH : 0 < s.maxLevels_)
    {k : Int} (hv : ¬ Visible k (ch 0)) : erase s k = some (false, s) := by
  simp [erase, contains_eq hi hH k, hv]

theorem insert_dup {s : TwoDList} {ch : Nat → Chain} (hi : Inv s ch) (hH : 0 < s.maxLevels_)
    {k : Int} (g : Coins) (hv : Visible k (ch 0)) : insert s k g = some (false, s, g) := by
  simp [insert, contains_eq hi hH k, hv]

theorem ins_ne_nil (x : Nat) (k : Int) (l : Chain) : ins x k l ≠ [] := by
  simp [ins]

theorem insert_new {s : TwoDList} {ch : Nat → Chain} (hi : Inv s ch) (hH : 0 < s.maxLevels_)
    {k : Int} (g : Coins) (hv : ¬ Visible k (ch 0)) (hd : NoDangling s ch)
    (hk : k ∉ keys (ch 0)) :
    ∃ (t : TwoDList) (g1 : Coins) (xs : Nat → Nat), insert s k g = some (true, t, g1) ∧
      t.maxLevels_ = s.maxLevels_ ∧
      Inv t (fun L => if L < 1 + promoted g (s.maxLevels_ - 1) then ins (xs L) k (ch L)
        else ch L) ∧
      NoDangling t (fun L => if L < 1 + promoted g (s.maxLevels_ - 1) then ins (xs L) k (ch L)
        else ch L) := by
  have hs := hi.struct
  have hs1 : Struct { s with heap := (s.heap.alloc k).2 } ch :=
    hs.reheap _ (fun b hb => by rw [Heap.vw_alloc]; simp [Nat.ne_of_lt hb])
  obtain ⟨r, e1, hr1, hr2, -⟩ := collectPtrs_ok k hs1 s.maxLevels_
    (List.replicate s.maxLevels_ none) (le_refl _) (by simp) hd
  obtain ⟨t1, e2, hs2, m2, len2, tl2⟩ := insertAt_spec hs hH hk
  obtain ⟨t, g1, xs, e3, m3, hs3, tl3⟩ := promote_spec k s.heap.length r s.maxLevels_ 1 t1 g _ hs2
    (le_refl _) (by omega) (by omega)
    (by rw [Function.update_same]; exact (addrs_ins _ _ _ _).mpr (Or.inl rfl))
    (fun L hL1 hL2 => by
      rw [m2] at hL2
      rw [Function.update_noteq (by omega)]
      exact ⟨hr2 L hL2, fun h => hk (hi.incl_zero hL2 k h)⟩)
  rw [m2] at m3 hs3 tl3
  have hch : ∀ L, L < s.maxLevels_ →
      (if L < 1 + promoted g (s.maxLevels_ - 1)
        then ins (Function.update xs 0 s.heap.length L) k (ch L) else ch L) =
      (if 1 ≤ L ∧ L < 1 + promoted g (s.maxLevels_ - 1)
        then ins (xs L) k (Function.update ch 0 (ins s.heap.length k (ch 0)) L)
        else Function.update ch 0 (ins s.heap.length k (ch 0)) L) := by
    intro L _
    by_cases hL0 : L = 0
    · subst hL0; simp
    · have : 1 ≤ L := by omega
      simp [hL0, this]
  have hs4 : Struct t (fun L => if L < 1 + promoted g (s.maxLevels_ - 1)
      then ins (Function.update xs 0 s.heap.length L) k (ch L) else ch L) :=
    hs3.congr (fun L hL => hch L (m3 ▸ hL))
  refine ⟨t, g1, Function.update xs 0 s.heap.length, ?_, m3, ⟨hs4, ?_⟩, ?_⟩
  · have hlen : s.maxLevels_ - 1 < s.heads_.length := by rw [hs.hlen]; omega
    simp only [insert, contains_eq hi hH k, hv, decide_False, Option.bind_eq_bind,
      Option.some_bind, Bool.false_eq_true, if_false, List.getElem?_eq_getElem hlen]
    simp only [Heap.alloc] at e1 e2 ⊢
    simp only [e1, Option.some_bind, hr2 0 hH, e2, e3]
  · intro L hL x hx
    rw [m3] at hL
    by_cases h1 : L + 1 < 1 + promoted g (s.maxLevels_ - 1)
    · have h2 : L < 1 + promoted g (s.maxLevels_ - 1) := by omega
      simp only [h1, h2, if_true] at hx ⊢
      rw [mem_keys_ins] at hx ⊢
      exact hx.imp id (hi.incl L hL x)
    · simp only [h1, if_false] at hx
      have := hi.incl L hL x hx
      split
      · exact mem_keys_ins.mpr (Or.inr this)
      · exact this
  · intro L hL hnil
    rw [m3] at hL
    by_cases h1 : L < 1 + promoted g (s.maxLevels_ - 1)
    · simp only [h1, if_true] at hnil
      exact absurd hnil (ins_ne_nil _ _ _)
    · simp only [h1, if_false] at hnil
      rw [tl3 L (by omega), tl2 L (by omega)]
      exact hd L hL hnil

theorem insert_fault {s : TwoDList} {ch : Nat → Chain} (hi : Inv s ch) (hH : 0 < s.maxLevels_)
    {k : Int} (g : Coins) (hv : ¬ Visible k (ch 0)) (hbad : ¬ (NoDangling s ch ∧ k ∉ keys (ch 0))) :
    insert s k g = none := by
  have hs := hi.struct
  have hs1 : Struct { s with heap := (s.heap.alloc k).2 } ch :=
    hs.reheap _ (fun b hb => by rw [Heap.vw_alloc]; simp [Nat.ne_of_lt hb])
  have hlen : s.maxLevels_ - 1 < s.heads_.length := by rw [hs.hlen]; omega
  simp only [insert, contains_eq hi hH k, hv, decide_False, Option.bind_eq_bind,
    Option.some_bind, Bool.false_eq_true, if_false, List.getElem?_eq_getElem hlen]
  by_cases hd : NoDangling s ch
  · have hk : k ∈ keys (ch 0) := by
      by_contra h; exact hbad ⟨hd, h⟩
    have hlen0 : (ch 0).length < 2 := by
      by_contra h; exact hv ⟨by omega, hk⟩
    obtain ⟨b, hb⟩ : ∃ b, ch 0 = [(b, k)] := by
      match hc : ch 0 with
      | [] => rw [hc] at hk; simp at hk
      | [(b, kb)] =>
        rw [hc] at hk
        simp only [keys_cons, keys_nil, List.mem_singleton] at hk
        exact ⟨b, by rw [hk]⟩
      | x :: y :: l => rw [hc] at hlen0; simp at hlen0; omega
    obtain ⟨r, e1, hr1, hr2, -⟩ := collectPtrs_ok k hs1 s.maxLevels_
      (List.replicate s.maxLevels_ none) (le_refl _) (by simp) hd
    have hl := hs1.level 0 hH
    rw [hb] at hl
    have hr0 := hr2 0 hH
    rw [hb, insPt_single] at hr0
    have hx : ({ s with heap := (s.heap.alloc k).2 } : TwoDList).heap.vw s.heap.length
        = some (k, none, none) := by
      show (s.heap.alloc k).2.vw s.heap.length = _
      rw [Heap.vw_alloc]; simp
    have hxb : s.heap.length ≠ b := by
      have := hs.addr_lt hH (a := b) (by rw [hb]; simp)
      omega
    have e2 := addBefore_dup hl hx hxb
    simp only [Heap.alloc] at e1 e2 ⊢
    simp only [e1, Option.some_bind, hr0, e2, Option.none_bind]
  · unfold NoDangling at hd
    push_neg at hd
    obtain ⟨L, hL, hc, ht⟩ := hd
    obtain ⟨u, hu, -⟩ := (hs.level L hL).tail
    have : ∃ d, u = some d := by
      cases u with
      | none => exact absurd hu ht
      | some d => exact ⟨d, rfl⟩
    obtain ⟨d, rfl⟩ := this
    have e1 := collectPtrs_fault k hs1 s.maxLevels_ (List.replicate s.maxLevels_ none)
      (le_refl _) ⟨L, d, hL, hc, hu⟩
    simp only [Heap.alloc] at e1 ⊢
    simp only [e1, Option.none_bind]

theorem levelKeys_spec {s : TwoDList} {ch : Nat → Chain} (hs : Struct s ch) {L : Nat}
    (hL : L < s.maxLevels_) : levelKeys s L = some (keys (ch L)) := by
  have hl := hs.level L hL
  simp [levelKeys, hl.head, walkKeys_spec hl.seg (seg_length_le hl.seg hl.nodup)]

theorem inv_create (H : Nat) :
    Inv (create H) (fun _ => []) ∧ NoDangling (create H) (fun _ => []) := by
  refine ⟨⟨⟨by simp [create], by simp [create], fun L hL => ?_,
    fun _ _ _ _ _ a ha => by simp at ha⟩, fun L _ x hx => by simp at hx⟩, fun L hL _ => ?_⟩
  · have hL2 : L < H := hL
    exact ⟨by simp [create, hL2], ⟨none, by simp [create, hL2], fun h => absurd rfl h⟩, trivial,
      by simp, by simp⟩
  · have hL2 : L < H := hL
    simp [create, hL2]

theorem liveKeys_snoc (tr : List (Op × Bool)) (x : Op × Bool) :
    liveKeys (tr ++ [x]) = liveStep (liveKeys tr) x := by
  simp [liveKeys, List.foldl_append]

/-- Every reachable state satisfies the invariant, and its level 0 holds exactly
the keys of the sorted-set model. -/
theorem reach_inv {H : Nat} {tr : List (Op × Bool)} {s : TwoDList} (hr : Reach H tr s)
    (hH : 0 < H) :
    s.maxLevels_ = H ∧ ∃ ch, Inv s ch ∧ ∀ y, y ∈ keys (ch 0) ↔ y ∈ liveKeys tr := by
  induction hr with
  | fresh => exact ⟨rfl, fun _ => [], (inv_create H).1, fun y => by simp [liveKeys]⟩
  | @insert tr s t k g g1 b _ hstep ih =>
    obtain ⟨hm, ch, hi, hk⟩ := ih
    have hH2 : 0 < s.maxLevels_ := by omega
    by_cases hv : Visible k (ch 0)
    · rw [insert_dup hi hH2 g hv] at hstep
      simp only [Option.some.injEq, Prod.mk.injEq] at hstep
      obtain ⟨rfl, rfl, -⟩ := hstep
      exact ⟨hm, ch, hi, fun y => by rw [liveKeys_snoc]; exact hk y⟩
    · by_cases hg : NoDangling s ch ∧ k ∉ keys (ch 0)
      · obtain ⟨t2, g2, xs, e, m, hi2, -⟩ := insert_new hi hH2 g hv hg.1 hg.2
        rw [e] at hstep
        simp only [Option.some.injEq, Prod.mk.injEq] at hstep
        obtain ⟨rfl, rfl, -⟩ := hstep
        refine ⟨by omega, _, hi2, fun y => ?_⟩
        have h0 : 0 < 1 + promoted g (s.maxLevels_ - 1) := by omega
        simp only [h0, if_true]
        rw [liveKeys_snoc, mem_keys_ins]
        simp only [liveStep, Finset.mem_insert, hk y]
      · rw [insert_fault hi hH2 g hv hg] at hstep
        exact absurd hstep (by simp)
  | @erase tr s t k b _ hstep ih =>
    obtain ⟨hm, ch, hi, hk⟩ := ih
    have hH2 : 0 < s.maxLevels_ := by omega
    by_cases hv : Visible k (ch 0)
    · obtain ⟨t2, e, m, hi2⟩ := erase_hit hi hH2 hv
      rw [e] at hstep
      simp only [Option.some.injEq, Prod.mk.injEq] at hstep
      obtain ⟨rfl, rfl⟩ := hstep
      refine ⟨by omega, _, hi2, fun y => ?_⟩
      rw [liveKeys_snoc, mem_keys_del]
      simp only [liveStep, Finset.mem_erase, hk y]
      tauto
    · rw [erase_miss hi hH2 hv] at hstep
      simp only [Option.some.injEq, Prod.mk.injEq] at hstep
      obtain ⟨rfl, rfl⟩ := hstep
      exact ⟨hm, ch, hi, fun y => by rw [liveKeys_snoc]; exact hk y⟩

theorem reach_sampleA : Reach 2 [(Op.ins 4, true)] sampleA :=
  Reach.insert Reach.fresh
    (show insert (create 2) 4 (fun _ => true) = some (true, sampleA, fun _ => true) from rfl)

theorem reach_sampleB : Reach 2 [(Op.ins 4, true), (Op.ins 6, true)] sampleB :=
  Reach.insert reach_sampleA
    (show insert sampleA 6 (fun _ => false) = some (true, sampleB, fun _ => false) from rfl)

theorem Clean.okay {s : TwoDList} {H : Nat} {ks : List Int} (h : Clean s H ks) : Okay s H ks :=
  let ⟨hm, ch, hi, _, hk⟩ := h
  ⟨hm, ch, hi, hk⟩

theorem clean_insert {s : TwoDList} {H : Nat} {ks : List Int} (h : Clean s H ks) (hH : 0 < H)
    (k : Int) (g : Coins) (hk : k ∉ ks) :
    ∃ t g1, insert s k g = some (true, t, g1) ∧ Clean t H (List.orderedInsert (· ≤ ·) k ks) := by
  obtain ⟨hm, ch, hi, hd, hks⟩ := h
  subst hm
  have hv : ¬ Visible k (ch 0) := fun hv => hk (hks ▸ hv.2)
  obtain ⟨t, g1, xs, e, m, hi2, hd2⟩ := insert_new hi hH g hv hd (hks ▸ hk)
  refine ⟨t, g1, e, m, _, hi2, hd2, ?_⟩
  have h0 : 0 < 1 + promoted g (s.maxLevels_ - 1) := by omega
  simp only [h0, if_true]
  rw [keys_ins, hks]

theorem okay_erase_hit {s : TwoDList} {H : Nat} {ks : List Int} (h : Okay s H ks) (hH : 0 < H)
    {k : Int} (hk : k ∈ ks) (h2 : 2 ≤ ks.length) :
    ∃ t, erase s k = some (true, t) ∧ Okay t H (ks.filter (fun y => decide (y ≠ k))) := by
  obtain ⟨hm, ch, hi, hks⟩ := h
  subst hm
  have hv : Visible k (ch 0) := ⟨by rw [← hks] at h2; simpa [keys] using h2, hks ▸ hk⟩
  obtain ⟨t, e, m, hi2⟩ := erase_hit hi hH hv
  exact ⟨t, e, m, _, hi2, by rw [keys_del, hks]⟩

theorem okay_erase_miss {s : TwoDList} {H : Nat} {ks : List Int} (h : Okay s H ks) (hH : 0 < H)
    {k : Int} (hk : k ∉ ks) : erase s k = some (false, s) := by
  obtain ⟨hm, ch, hi, hks⟩ := h
  subst hm
  exact erase_miss hi hH (fun hv => hk (hks ▸ hv.2))

theorem okay_levelKeys {s : TwoDList} {H : Nat} {ks : List Int} (h : Okay s H ks) (hH : 0 < H) :
    levelKeys s 0 = some ks := by
  obtain ⟨hm, ch, hi, hks⟩ := h
  subst hm
  rw [levelKeys_spec hi.struct hH, hks]

/-- C1 (failing input): on `TwoDList(1)`, `insert(5)` returns true and the
`contains(5)` that follows returns false. -/
theorem C1_insert_then_contains_is_false :
    ((create 1).insert 5 (fun _ => false)).map (fun r => (r.1, r.2.1.contains 5))
      = some (true, some false) := by
  decide

/-- C2: in every reachable state of a structure of positive height, whenever
`insert(k)` and the `erase(k)` that follows both return, `contains(k)` afterwards
returns false. -/
theorem C2_insert_erase_contains {H : Nat} {tr : List (Op × Bool)} {s s1 s2 : TwoDList}
    {k : Int} {g g1 : Coins} {b1 b2 : Bool} (hr : Reach H tr s) (hH : 0 < H)
    (h1 : insert s k g = some (b1, s1, g1)) (h2 : erase s1 k = some (b2, s2)) :
    contains s2 k = some false := by
  obtain ⟨hm, ch, hi, -⟩ := reach_inv (Reach.insert hr h1) hH
  have hH1 : 0 < s1.maxLevels_ := by omega
  by_cases hv : Visible k (ch 0)
  · obtain ⟨t, e, m, hi2⟩ := erase_hit hi hH1 hv
    rw [e] at h2
    simp only [Option.some.injEq, Prod.mk.injEq] at h2
    obtain ⟨-, rfl⟩ := h2
    rw [contains_eq hi2 (by omega) k]
    have : ¬ Visible k (del k (ch 0)) := fun h => (mem_keys_del.mp h.2).2 rfl
    simp [this]
  · rw [erase_miss hi hH1 hv] at h2
    simp only [Option.some.injEq, Prod.mk.injEq] at h2
    obtain ⟨-, rfl⟩ := h2
    rw [contains_eq hi hH1 k]
    simp [hv]

/-- C2 (witness): from `sampleA`, `insert(6)` gives `sampleB`, `erase(6)` gives
`sampleC`, and `contains(6)` is then false. -/
theorem C2_witness : contains sampleC 6 = some false :=
  C2_insert_erase_contains reach_sampleA (by decide)
    (show insert sampleA 6 (fun _ => false) = some (true, sampleB, fun _ => false) from rfl)
    (show erase sampleB 6 = some (true, sampleC) by decide)

/-- C3 (failing input): on `TwoDList(1)` holding the single key 5 (level 0 reads
`5`), `insert(5)` does not return false: it dereferences a null pointer. -/
theorem C3_duplicate_insert_faults :
    ((create 1).insert 5 (fun _ => false)).map
        (fun r => (r.1, levelKeys r.2.1 0, (r.2.1.insert 5 r.2.2).isSome))
      = some (true, some [5], false) := by
  decide

/-- C4 (failing input): on `TwoDList(1)` holding the single key 5 (level 0 reads
`5`), `erase(5)` returns false. -/
theorem C4_erase_of_stored_key_is_false :
    ((create 1).insert 5 (fun _ => false)).map
        (fun r => (r.1, levelKeys r.2.1 0, (r.2.1.erase 5).map Prod.fst))
      = some (true, some [5], some false) := by
  decide

/-- C5: in every reachable state of a structure of positive height, `erase(k)` of
a key that occurs in no level returns false and leaves the whole state (heads,
tails and every node) as it was. -/
theorem C5_erase_absent {H : Nat} {tr : List (Op × Bool)} {s : TwoDList} {k : Int}
    (hr : Reach H tr s) (hH : 0 < H) (habs : ∀ L, L < H → ¬ occursAt s L k) :
    erase s k = some (false, s) := by
  obtain ⟨hm, ch, hi, -⟩ := reach_inv hr hH
  have hH1 : 0 < s.maxLevels_ := by omega
  refine erase_miss hi hH1 (fun hv => habs 0 hH ?_)
  unfold occursAt
  rw [levelKeys_spec hi.struct hH1]
  exact hv.2

/-- C5 (witness): `erase(7)` on `sampleB`, whose levels read `4, 6` and `4`. -/
theorem C5_witness : erase sampleB 7 = some (false, sampleB) :=
  C5_erase_absent reach_sampleB (by decide) (by decide)

/-- C6 (failing input): on `TwoDList(3)`, after the single call `insert(9)` with
three successful coins every level holds the key 9, and `contains(9)` returns
false. -/
theorem C6_contains_misses_inserted_key :
    ((create 3).insert 9 (fun _ => true)).map
        (fun r => (r.1, (List.range 3).map (levelKeys r.2.1), r.2.1.contains 9))
      = some (true, [some [9], some [9], some [9]], some false) := by
  decide

/-- C7: in every reachable state of a structure of positive height, the keys read
from the head of level 0 through the `next_` links are the sorted, duplicate-free
list of the keys for which `insert` returned true and no later `erase` returned
true. -/
theorem C7_level0_refines_sorted_set {H : Nat} {tr : List (Op × Bool)} {s : TwoDList}
    (hr : Reach H tr s) (hH : 0 < H) :
    levelKeys s 0 = some ((liveKeys tr).sort (· ≤ ·)) := by
  obtain ⟨hm, ch, hi, hk⟩ := reach_inv hr hH
  have hH1 : 0 < s.maxLevels_ := by omega
  rw [levelKeys_spec hi.struct hH1]
  congr 1
  have hsorted := (hi.struct.level 0 hH1).sorted
  have hnd : (keys (ch 0)).Nodup := hsorted.imp (fun h => ne_of_lt h)
  have hperm : (keys (ch 0)).Perm ((liveKeys tr).sort (· ≤ ·)) :=
    (List.perm_ext_iff_of_nodup hnd (Finset.sort_nodup _ _)).mpr
      (fun y => by rw [Finset.mem_sort]; exact hk y)
  exact List.eq_of_perm_of_sorted hperm (hsorted.imp (fun h => le_of_lt h))
    (Finset.sort_sorted _ _)

/-- C7 (witness): `sampleB`, reached by `insert(4)` and `insert(6)`. -/
theorem C7_witness :
    levelKeys sampleB 0
      = some ((liveKeys [(Op.ins 4, true), (Op.ins 6, true)]).sort (· ≤ ·)) :=
  C7_level0_refines_sorted_set reach_sampleB (by decide)

/-- C8: the scenario of `test03` on `TwoDList(3)`, for every stream of coin
outcomes: the four inserts return, level 0 then reads `4, 6, 7, 82`;
`erase(82)` returns true and `erase(35)` false, leaving `4, 6, 7`; `erase(123)`
returns false and `erase(7)` true, leaving `4, 6`. -/
theorem C8_scenario (g : Coins) :
    ∃ (s1 s2 s3 s4 s5 s6 : TwoDList) (g1 g2 g3 g4 : Coins),
      insert (create 3) 4 g = some (true, s1, g1) ∧
      insert s1 7 g1 = some (true, s2, g2) ∧
      insert s2 6 g2 = some (true, s3, g3) ∧
      insert s3 82 g3 = some (true, s4, g4) ∧
      levelKeys s4 0 = some [4, 6, 7, 82] ∧
      erase s4 82 = some (true, s5) ∧
      erase s5 35 = some (false, s5) ∧
      levelKeys s5 0 = some [4, 6, 7] ∧
      erase s5 123 = some (false, s5) ∧
      erase s5 7 = some (true, s6) ∧
      levelKeys s6 0 = some [4, 6] := by
  have hH : 0 < 3 := by decide
  have c0 : Clean (create 3) 3 [] :=
    ⟨rfl, _, (inv_create 3).1, (inv_create 3).2, rfl⟩
  obtain ⟨s1, g1, e1, c1⟩ := clean_insert c0 hH 4 g (by decide)
  obtain ⟨s2, g2, e2, c2⟩ := clean_insert c1 hH 7 g1 (by decide)
  obtain ⟨s3, g3, e3, c3⟩ := clean_insert c2 hH 6 g2 (by decide)
  obtain ⟨s4, g4, e4, c4⟩ := clean_insert c3 hH 82 g3 (by decide)
  have c4o : Okay s4 3 [4, 6, 7, 82] := c4.okay
  obtain ⟨s5, e5, c5⟩ := okay_erase_hit c4o hH (k := 82) (by decide) (by decide)
  have c5o : Okay s5 3 [4, 6, 7] := c5
  obtain ⟨s6, e6, c6⟩ := okay_erase_hit c5o hH (k := 7) (by decide) (by decide)
  have c6o : Okay s6 3 [4, 6] := c6
  exact ⟨s1, s2, s3, s4, s5, s6, g1, g2, g3, g4, e1, e2, e3, e4, okay_levelKeys c4o hH, e5,
    okay_erase_miss c5o hH (by decide), okay_levelKeys c5o hH,
    okay_erase_miss c5o hH (by decide), e6, okay_levelKeys c6o hH⟩

/-- C9: on a freshly constructed structure of positive height, `erase(k)` and
`contains(k)` both return false without faulting, the state is unchanged, and
every level is empty (null head, null tail, no key). -/
theorem C9_fresh_structure (H : Nat) (k : Int) (hH : 0 < H) :
    erase (create H) k = some (false, create H) ∧ contains (create H) k = some false ∧
      ∀ L, L < H → (create H).heads_[L]? = some none ∧ (create H).tails_[L]? = some none ∧
        levelKeys (create H) L = some [] := by
  have hi := (inv_create H).1
  have hv : ¬ Visible k ((fun _ => []) 0 : Chain) := fun h => by simp [Visible] at h
  refine ⟨erase_miss hi hH hv, ?_, fun L hL => ?_⟩
  · rw [contains_eq hi hH k]; simp [hv]
  · exact ⟨by simp [create, hL], by simp [create, hL], levelKeys_spec hi.struct hL⟩

/-- C9 (witness): `TwoDList(3)` and the key 4, as in `test04`. -/
theorem C9_witness :
    erase (create 3) 4 = some (false, create 3) ∧ contains (create 3) 4 = some false ∧
      ∀ L, L < 3 → (create 3).heads_[L]? = some none ∧ (create 3).tails_[L]? = some none ∧
        levelKeys (create 3) L = some [] :=
  C9_fresh_structure 3 4 (by decide)

/-- C10: in every reachable state of a structure of positive height, when
`erase(k)` returns true, every level afterwards reads as it did before with `k`
removed: the other keys stay, in the same order, at the same levels. -/
theorem C10_erase_removes_key {H : Nat} {tr : List (Op × Bool)} {s t : TwoDList} {k : Int}
    (hr : Reach H tr s) (hH : 0 < H) (he : erase s k = some (true, t)) :
    ∀ L, L < H → ∃ ks, levelKeys s L = some ks ∧
      levelKeys t L = some (ks.filter (fun y => decide (y ≠ k))) := by
  obtain ⟨hm, ch, hi, -⟩ := reach_inv hr hH
  have hH1 : 0 < s.maxLevels_ := by omega
  by_cases hv : Visible k (ch 0)
  · obtain ⟨t2, e, m, hi2⟩ := erase_hit hi hH1 hv
    rw [e] at he
    simp only [Option.some.injEq, Prod.mk.injEq, true_and] at he
    subst he
    intro L hL
    refine ⟨keys (ch L), levelKeys_spec hi.struct (by omega), ?_⟩
    rw [levelKeys_spec hi2.struct (by omega), keys_del]
  · rw [erase_miss hi hH1 hv] at he
    simp at he

/-- C10 (witness): `erase(4)` on `sampleB` gives `sampleD`; level 0 goes from
`4, 6` to `6` and level 1 from `4` to empty. -/
theorem C10_witness :
    (∃ ks, levelKeys sampleB 0 = some ks ∧
      levelKeys sampleD 0 = some (ks.filter (fun y => decide (y ≠ 4)))) ∧
    (∃ ks, levelKeys sampleB 1 = some ks ∧
      levelKeys sampleD 1 = some (ks.filter (fun y => decide (y ≠ 4)))) :=
  have h := C10_erase_removes_key reach_sampleB (by decide)
    (show erase sampleB 4 = some (true, sampleD) by decide)
  ⟨h 0 (by decide), h 1 (by decide)⟩

end TwoDList

namespace TwoDList

theorem reach_sampleD :
    Reach 2 [(Op.ins 4, true), (Op.ins 6, true), (Op.del 4, true)] sampleD :=
  Reach.erase reach_sampleB (show erase sampleB 4 = some (true, sampleD) by decide)

theorem reach_zero {tr : List (Op × Bool)} {s : TwoDList} (hr : Reach 0 tr s) :
    tr = [] ∧ s = create 0 := by
  generalize hH : (0 : Nat) = H at hr
  induction hr with
  | fresh => exact ⟨rfl, rfl⟩
  | insert _ hstep ih =>
    obtain ⟨-, rfl⟩ := ih
    simp [insert, contains, create, ← hH] at hstep
  | erase _ hstep ih =>
    obtain ⟨-, rfl⟩ := ih
    simp [erase, contains, create, ← hH] at hstep

theorem walkNodes_spec {h : Heap} {p : Ptr} {l : Chain} (hs : Seg h p l none)
    {fuel : Nat} (hf : l.length ≤ fuel) :
    walkNodes h fuel (hd l none) = some l := by
  induction l generalizing p fuel with
  | nil => cases fuel <;> simp [walkNodes]
  | cons x l ih =>
    obtain ⟨a, ka⟩ := x
    cases fuel with
    | zero => simp at hf
    | succ fuel =>
      obtain ⟨n, hn, hk, hp, he⟩ := Heap.vw_some hs.1
      have := ih hs.2 (show l.length ≤ fuel by simpa using hf)
      simp [walkNodes, hn, hk, he, this]

theorem levelNodes_spec {s : TwoDList} {ch : Nat → Chain} (hs : Struct s ch) {L : Nat}
    (hL : L < s.maxLevels_) : levelNodes s L = some (ch L) := by
  have hl := hs.level L hL
  simp [levelNodes, hl.head, walkNodes_spec hl.seg (seg_length_le hl.seg hl.nodup)]

theorem occursAt_iff {s : TwoDList} {ch : Nat → Chain} (hs : Struct s ch) {L : Nat}
    (hL : L < s.maxLevels_) (k : Int) : occursAt s L k ↔ k ∈ keys (ch L) := by
  unfold occursAt
  rw [levelKeys_spec hs hL]

theorem occursAt_out {s : TwoDList} {ch : Nat → Chain} (hs : Struct s ch) {L : Nat}
    (hL : s.maxLevels_ ≤ L) (k : Int) : ¬ occursAt s L k := by
  unfold occursAt levelKeys
  rw [List.getElem?_eq_none (by rw [hs.hlen]; exact hL)]
  simp

theorem Inv.incl_le {s : TwoDList} {ch : Nat → Chain} (hi : Inv s ch) {L M : Nat}
    (hL : L < s.maxLevels_) (hM : M ≤ L) : ∀ x ∈ keys (ch L), x ∈ keys (ch M) := by
  induction L with
  | zero =>
    have : M = 0 := by omega
    subst this; exact fun x hx => hx
  | succ L ih =>
    by_cases h : M = L + 1
    · subst h; exact fun x hx => hx
    · exact fun x hx => ih (by omega) (by omega) x (hi.incl L hL x hx)

theorem promoted_eq_min (n : Nat) : ∀ (g : Coins) (j : Nat), (∀ i, i < j → g i = true) →
    g j = false → promoted g n = min j n := by
  induction n with
  | zero => intro g j _ _; simp [promoted]
  | succ n ih =>
    intro g j h1 h2
    cases j with
    | zero => simp [promoted, h2]
    | succ j =>
      have h0 : g 0 = true := h1 0 (by omega)
      have := ih (fun i => g (i + 1)) j (fun i hi => h1 (i + 1) (by omega)) h2
      simp only [promoted, h0, if_true, this]
      omega

theorem insPt_eq_aux (k : Int) (l : Chain) (hk : k ∉ keys l) : ∀ p : Ptr,
    (match upper k l with
      | [] => lst p l
      | (c, _) :: _ => some c) =
    (match l.find? (fun x => decide (k < x.2)) with
      | some x => some x.1
      | none => lst p l) := by
  induction l with
  | nil => intro p; rfl
  | cons x l ih =>
    intro p
    obtain ⟨a, ka⟩ := x
    simp only [keys_cons, List.mem_cons, not_or] at hk
    by_cases h : ka < k
    · have h2 : ¬ k < ka := by omega
      have := ih hk.2 (some a)
      simp only [upper, List.dropWhile_cons, h, decide_True, if_true, List.find?_cons, h2,
        decide_False, lst_cons] at this ⊢
      exact this
    · have h2 : k < ka := by
        have := hk.1; omega
      simp [upper, List.dropWhile_cons, h, List.find?_cons, h2]

theorem insPt_eq_succPoint {k : Int} {l : Chain} (hk : k ∉ keys l) :
    insPt k l = succPoint l k :=
  insPt_eq_aux k l hk none

/-- Level 0 of a state reached after a successful `insert` is not empty. -/
theorem reach_nonempty {H : Nat} {tr : List (Op × Bool)} {s : TwoDList} (hr : Reach H tr s)
    (hH : 0 < H) (hins : ∃ k, (Op.ins k, true) ∈ tr) :
    ∃ ks, levelKeys s 0 = some ks ∧ ks ≠ [] := by
  have key : ∀ {tr : List (Op × Bool)} {s : TwoDList}, Reach H tr s →
      (∃ y, y ∈ liveKeys tr) → ∃ ks, levelKeys s 0 = some ks ∧ ks ≠ [] := by
    intro tr s hr ⟨y, hy⟩
    obtain ⟨hm, ch, hi, hk⟩ := reach_inv hr hH
    refine ⟨keys (ch 0), levelKeys_spec hi.struct (by omega), ?_⟩
    exact List.ne_nil_of_mem ((hk y).mpr hy)
  have live : ∀ {tr : List (Op × Bool)} {s : TwoDList}, Reach H tr s →
      ∀ ks, levelKeys s 0 = some ks → ks ≠ [] → ∃ y, y ∈ liveKeys tr := by
    intro tr s hr ks h1 h2
    obtain ⟨hm, ch, hi, hk⟩ := reach_inv hr hH
    rw [levelKeys_spec hi.struct (by omega)] at h1
    cases h1
    obtain ⟨y, hy⟩ := List.exists_mem_of_ne_nil _ h2
    exact ⟨y, (hk y).mp hy⟩
  induction hr with
  | fresh => obtain ⟨k, hk⟩ := hins; simp at hk
  | @insert tr s t k g g1 b hprev hstep ih =>
    refine key (Reach.insert hprev hstep) ?_
    rw [liveKeys_snoc]
    cases b with
    | true => exact ⟨k, by simp [liveStep]⟩
    | false =>
      have h1 : ∃ k, (Op.ins k, true) ∈ tr := by
        obtain ⟨k2, hk2⟩ := hins
        simp only [List.mem_append, List.mem_singleton, Prod.mk.injEq, Bool.true_eq_false,
          and_false, or_false] at hk2
        exact ⟨k2, hk2⟩
      obtain ⟨ks, e1, e2⟩ := ih h1
      exact live hprev ks e1 e2
  | @erase tr s t k b hprev hstep ih =>
    refine key (Reach.erase hprev hstep) ?_
    rw [liveKeys_snoc]
    have h1 : ∃ k, (Op.ins k, true) ∈ tr := by
      obtain ⟨k2, hk2⟩ := hins
      simp only [List.mem_append, List.mem_singleton, Prod.mk.injEq, reduceCtorEq,
        false_and, or_false] at hk2
      exact ⟨k2, hk2⟩
    cases b with
    | false =>
      obtain ⟨ks, e1, e2⟩ := ih h1
      exact live hprev ks e1 e2
    | true =>
      obtain ⟨hm, ch, hi, hk⟩ := reach_inv hprev hH
      have hH2 : 0 < s.maxLevels_ := by omega
      by_cases hv : Visible k (ch 0)
      · have hnd : (keys (ch 0)).Nodup :=
          (hi.struct.level 0 hH2).sorted.imp (fun h => ne_of_lt h)
        obtain ⟨h2, -⟩ := hv
        match hc : ch 0 with
        | [] => rw [hc] at h2; simp at h2
        | [x] => rw [hc] at h2; simp at h2
        | (a1, k1) :: (a2, k2) :: l =>
          rw [hc] at hnd hk
          simp only [keys_cons, List.nodup_cons, List.mem_cons, not_or] at hnd
          by_cases h3 : k1 = k
          · refine ⟨k2, ?_⟩
            simp only [liveStep, Finset.mem_erase]
            exact ⟨fun h => hnd.1.1 (h3.trans h.symm), (hk k2).mp (by simp)⟩
          · refine ⟨k1, ?_⟩
            simp only [liveStep, Finset.mem_erase]
            exact ⟨h3, (hk k1).mp (by simp)⟩
      · rw [erase_miss hi hH2 hv] at hstep
        simp at hstep

end TwoDList

namespace TwoDList

/-- C11 (failing input): `TwoDList(2)` after `insert(4)` (promoted), `insert(6)`
and `erase(4)`.  Level 1 reads empty from its head, but its tail still refers to
the deleted node: the walk from the head does not end at the tail, and the walk
from the tail through the `prev_` links reads a released node. -/
theorem C11_emptied_level_keeps_its_tail :
    Reach 2 [(Op.ins 4, true), (Op.ins 6, true), (Op.del 4, true)] sampleD ∧
      sampleD.heads_[1]? = some none ∧ sampleD.tails_[1]? = some (some 1) ∧
      sampleD.heap.deref 1 = none ∧
      levelKeys sampleD 1 = some [] ∧ levelKeysBack sampleD 1 = none :=
  ⟨reach_sampleD, by decide, by decide, by decide, by decide, by decide⟩

/-- C12: in every reachable state, a key that occurs in the chain of level `L`
occurs in the chain of every level `M ≤ L`. -/
theorem C12_downward_inclusion {H : Nat} {tr : List (Op × Bool)} {s : TwoDList} {k : Int}
    {L M : Nat} (hr : Reach H tr s) (hk : occursAt s L k) (hM : M ≤ L) :
    occursAt s M k := by
  have hH : 0 < H := by
    by_contra h
    have h0 : H = 0 := by omega
    subst h0
    obtain ⟨-, rfl⟩ := reach_zero hr
    simp [occursAt, levelKeys, create] at hk
  obtain ⟨hm, ch, hi, -⟩ := reach_inv hr hH
  have hL : L < s.maxLevels_ := by
    by_contra h
    exact occursAt_out hi.struct (by omega) k hk
  rw [occursAt_iff hi.struct hL] at hk
  rw [occursAt_iff hi.struct (by omega)]
  exact hi.incl_le hL hM k hk

/-- C12 (witness): in `sampleB` the key 4 occurs at level 1, hence at level 0. -/
theorem C12_witness : occursAt sampleB 0 4 :=
  C12_downward_inclusion reach_sampleB (show occursAt sampleB 1 4 by decide)
    (show 0 ≤ 1 by decide)

/-- C13: in every reachable state of a structure of height `H`, for a key `k`
stored at no level and coin outcomes with `j` leading successes, an `insert(k)`
that returns returns true and leaves `k` at exactly the levels
`0 .. min j (H - 1)`; in particular at no level `≥ H`. -/
theorem C13_promotion_levels {H : Nat} {tr : List (Op × Bool)} {s t : TwoDList} {k : Int}
    {g g1 : Coins} {b : Bool} {j : Nat} (hr : Reach H tr s)
    (hk : ∀ L, L < H → ¬ occursAt s L k) (h1 : ∀ i, i < j → g i = true) (h2 : g j = false)
    (he : insert s k g = some (b, t, g1)) :
    b = true ∧ ∀ L, (occursAt t L k ↔ L ≤ min j (H - 1)) := by
  have hH : 0 < H := by
    by_contra h
    have h0 : H = 0 := by omega
    subst h0
    obtain ⟨-, rfl⟩ := reach_zero hr
    simp [insert, contains, create] at he
  obtain ⟨hm, ch, hi, -⟩ := reach_inv hr hH
  subst hm
  have hnk : ∀ L, L < s.maxLevels_ → k ∉ keys (ch L) :=
    fun L hL => (occursAt_iff hi.struct hL k).not.mp (hk L hL)
  have hv : ¬ Visible k (ch 0) := fun h => hnk 0 hH h.2
  by_cases hg : NoDangling s ch ∧ k ∉ keys (ch 0)
  · obtain ⟨t2, g2, xs, e, m, hi2, -⟩ := insert_new hi hH g hv hg.1 hg.2
    rw [e] at he
    simp only [Option.some.injEq, Prod.mk.injEq] at he
    obtain ⟨rfl, rfl, -⟩ := he
    refine ⟨rfl, fun L => ?_⟩
    rw [promoted_eq_min _ g j h1 h2] at hi2
    by_cases hL : L < s.maxLevels_
    · rw [occursAt_iff hi2.struct (by omega)]
      by_cases hlt : L < 1 + min j (s.maxLevels_ - 1)
      · simp only [hlt, if_true]
        exact ⟨fun _ => by omega, fun _ => mem_keys_ins.mpr (Or.inl rfl)⟩
      · simp only [hlt, if_false]
        exact ⟨fun h => absurd h (hnk L hL), fun h => by omega⟩
    · exact ⟨fun h => absurd h (occursAt_out hi2.struct (by omega) k), fun h => by omega⟩
  · rw [insert_fault hi hH g hv hg] at he
    simp at he

/-- C13 (witness): on `TwoDList(2)`, `insert(4)` with one success then a failure
gives `sampleA`, where 4 is at levels 0 and 1. -/
theorem C13_witness : true = true ∧ ∀ L, (occursAt sampleA L 4 ↔ L ≤ min 1 (2 - 1)) :=
  C13_promotion_levels Reach.fresh (by decide)
    (show ∀ i, i < 1 → (fun i => decide (i < 1)) i = true by decide)
    (show (fun i => decide (i < 1)) 1 = false by decide)
    (show insert (create 2) 4 (fun i => decide (i < 1))
      = some (true, sampleA, fun i => decide (i + 1 + 1 < 1)) from rfl)

/-- C14 (failing input): `TwoDList(2)` after `insert(4)` (promoted), `insert(6)`
and `erase(4)`; the call `insert(7)` that follows dereferences the null head of
level 1. -/
theorem C14_insert_after_emptied_level_faults :
    Reach 2 [(Op.ins 4, true), (Op.ins 6, true), (Op.del 4, true)] sampleD ∧
      contains sampleD 7 = some false ∧ levelIsEmpty sampleD 1 = some false ∧
      insertPoint sampleD 7 1 = none ∧ insert sampleD 7 (fun _ => false) = none :=
  ⟨reach_sampleD, by decide, by decide, by decide, rfl⟩

/-- C15 (failing input): in `sampleB` the key 4 is the only node of level 1;
`erase(4)` returns true and leaves level 1 with a null head and a tail that still
refers to the deleted node. -/
theorem C15_erase_of_only_node_leaves_tail :
    levelKeys sampleB 1 = some [4] ∧
      (erase sampleB 4).map
          (fun r => (r.1, r.2.heads_[1]?, r.2.tails_[1]?, r.2.heap.deref 1))
        = some (true, some none, some (some 1), none) := by
  decide

/-- C16 (failing input): level 0 of `sampleA` holds exactly one node (head and
tail both refer to it) and `levelIsEmpty(0)` returns true. -/
theorem C16_one_node_level_reported_empty :
    levelKeys sampleA 0 = some [4] ∧ sampleA.heads_[0]? = some (some 0) ∧
      sampleA.tails_[0]? = some (some 0) ∧ levelIsEmpty sampleA 0 = some true := by
  decide

/-- C17 (failing input): on `TwoDList(3)`, `insert(7)` with two successful coins
puts 7 at levels 0, 1, 2 (nodes 0, 1, 2).  The down-link of the node of level 2
refers to the node of level 0, and the node of level 1 has no up-link. -/
theorem C17_vertical_links_skip_a_level :
    ((create 3).insert 7 (fun _ => true)).map (fun r => (r.1, r.2.1.heads_, r.2.1.heap))
      = some (true, [some 0, some 1, some 2],
          [some { data_ := 7, next_ := none, prev_ := none, upLevel_ := some 2,
                  downLevel_ := none },
           some { data_ := 7, next_ := none, prev_ := none, upLevel_ := none,
                  downLevel_ := some 0 },
           some { data_ := 7, next_ := none, prev_ := none, upLevel_ := none,
                  downLevel_ := some 0 }]) := by
  decide

/-- C18 (counterexample): level 0 of `sampleB` holds the nodes 0 (key 4) and 2
(key 6); `insert(5)` records node 2, the node to add before, while the rightmost
node with a key less than 5 is node 0. -/
theorem C18_counterexample :
    Reach 2 [(Op.ins 4, true), (Op.ins 6, true)] sampleB ∧
      (∀ M, M < 2 → ¬ occursAt sampleB M 5) ∧
      levelNodes sampleB 0 = some [(0, 4), (2, 6)] ∧ recordedPoint sampleB 5 0 = some (some 2) ∧
      predPoint [(0, 4), (2, 6)] 5 = some 0 ∧
      recordedPoint sampleB 5 0 ≠ some (predPoint [(0, 4), (2, 6)] 5) :=
  ⟨reach_sampleB, by decide, by decide, by decide, by decide, by decide⟩

/-- C18 (amended): in every reachable state in which no level is left with a null
head and a non-null tail, for a key `k` stored at no level, `contains(k)` is
false, the collection loop of `insert(k)` returns, and the insertion point it
records for a level is the leftmost node whose key is greater than `k`, the last
node of the level when no key is greater, and null when the level has no node. -/
theorem C18_recorded_point {H : Nat} {tr : List (Op × Bool)} {s : TwoDList} {k : Int}
    {L : Nat} (hr : Reach H tr s) (hL : L < H) (hk : ∀ M, M < H → ¬ occursAt s M k)
    (hd : ∀ M, M < H → s.heads_[M]? = some none → s.tails_[M]? = some none) :
    contains s k = some false ∧
      ∃ nodes, levelNodes s L = some nodes ∧
        recordedPoint s k L = some (succPoint nodes k) := by
  have hH : 0 < H := by omega
  obtain ⟨hm, ch, hi, -⟩ := reach_inv hr hH
  subst hm
  have hs1 : Struct { s with heap := (s.heap.alloc k).2 } ch :=
    hi.struct.reheap _ (fun b hb => by rw [Heap.vw_alloc]; simp [Nat.ne_of_lt hb])
  have hnk : ∀ M, M < s.maxLevels_ → k ∉ keys (ch M) :=
    fun M hM => (occursAt_iff hi.struct hM k).not.mp (hk M hM)
  have hnd : ∀ M, M < s.maxLevels_ → ch M = [] → s.tails_[M]? = some none := by
    intro M hM hnil
    have hh := (hi.struct.level M hM).head
    rw [hnil] at hh
    exact hd M hM hh
  obtain ⟨r, e1, -, hr2, -⟩ := collectPtrs_ok k hs1 s.maxLevels_
    (List.replicate s.maxLevels_ none) (le_refl _) (by simp) hnd
  refine ⟨?_, ch L, levelNodes_spec hi.struct hL, ?_⟩
  · rw [contains_eq hi hH k]
    have hv : ¬ Visible k (ch 0) := fun h => hnk 0 hH h.2
    simp [hv]
  · have e2 : recordedPoints s k = some r := e1
    simp only [recordedPoint, e2, Option.bind_eq_bind, Option.some_bind]
    rw [hr2 L hL, insPt_eq_succPoint (hnk L hL)]

/-- C18 (witness): `insert(5)` in `sampleB`, level 0. -/
theorem C18_witness :
    contains sampleB 5 = some false ∧
      ∃ nodes, levelNodes sampleB 0 = some nodes ∧
        recordedPoint sampleB 5 0 = some (succPoint nodes 5) :=
  C18_recorded_point reach_sampleB (show 0 < 2 by decide) (by decide) (by decide)

/-- C19: in every reachable state whose level 0 holds at least two keys,
`contains(k)` returns true exactly when `k` occurs in the chain of level 0. -/
theorem C19_contains_iff_level0 {H : Nat} {tr : List (Op × Bool)} {s : TwoDList}
    {ks : List Int} (k : Int) (hr : Reach H tr s)
    (h0 : levelKeys s 0 = some ks) (h2 : 2 ≤ ks.length) :
    contains s k = some (decide (k ∈ ks)) := by
  have hH : 0 < H := by
    by_contra h
    have h0 : H = 0 := by omega
    subst h0
    obtain ⟨-, rfl⟩ := reach_zero hr
    simp [levelKeys, create] at h0
  obtain ⟨hm, ch, hi, -⟩ := reach_inv hr hH
  subst hm
  rw [levelKeys_spec hi.struct hH] at h0
  cases h0
  rw [contains_eq hi hH k]
  congr 1
  rw [Bool.eq_iff_iff]
  simp only [decide_eq_true_eq, Visible]
  have : 2 ≤ (ch 0).length := by simpa [keys] using h2
  exact ⟨fun h => h.2, fun h => ⟨this, h⟩⟩

/-- C19 (witness): `contains(6)` in `sampleB`, whose level 0 reads `4, 6`. -/
theorem C19_witness : contains sampleB 6 = some (decide ((6 : Int) ∈ [4, 6])) :=
  C19_contains_iff_level0 6 reach_sampleB
    (show levelKeys sampleB 0 = some [4, 6] by decide) (by decide)

/-- C20: in every reachable state, when level 0 holds exactly one key `k`, `contains(k)` returns false and `erase(k)` returns
false and leaves the state unchanged; and once an `insert` has returned true,
level 0 is not empty. -/
theorem C20_last_key_stays {H : Nat} {tr : List (Op × Bool)} {s : TwoDList}
    (hr : Reach H tr s) :
    (∀ k, levelKeys s 0 = some [k] →
      contains s k = some false ∧ erase s k = some (false, s)) ∧
    ((∃ k, (Op.ins k, true) ∈ tr) → ∃ ks, levelKeys s 0 = some ks ∧ ks ≠ []) := by
  by_cases hH : 0 < H
  swap
  · have h0 : H = 0 := by omega
    subst h0
    obtain ⟨rfl, rfl⟩ := reach_zero hr
    exact ⟨fun k h => by simp [levelKeys, create] at h, fun ⟨k, h⟩ => by simp at h⟩
  refine ⟨fun k h0 => ?_, reach_nonempty hr hH⟩
  obtain ⟨hm, ch, hi, -⟩ := reach_inv hr hH
  subst hm
  rw [levelKeys_spec hi.struct hH] at h0
  have hv : ¬ Visible k (ch 0) := by
    intro h
    have h2 := h.1
    have h3 : (keys (ch 0)).length = 1 := by
      simp only [Option.some.injEq] at h0
      rw [h0]; rfl
    simp only [keys, List.length_map] at h3
    omega
  exact ⟨by rw [contains_eq hi hH k]; simp [hv], erase_miss hi hH hv⟩

/-- C20 (witness): `sampleA`, reached by one successful `insert(4)`; its level 0
reads `4`. -/
theorem C20_witness :
    (contains sampleA 4 = some false ∧ erase sampleA 4 = some (false, sampleA)) ∧
      ∃ ks, levelKeys sampleA 0 = some ks ∧ ks ≠ [] :=
  have h := C20_last_key_stays reach_sampleA
  ⟨h.1 4 (by decide), h.2 ⟨4, by simp⟩⟩

end TwoDList
